import Mathlib

/-!
# Pixel pipeline of `server.js`

A shallow embedding of the image routines of `server.js`
(`analyzeTemplateColorsFromMemory`, `createThumbnailFromMemory`,
`generateOutlineDrawingFromMemory`, `generateColoredIllustrationFromMemory`)
together with the few Jimp primitives they call (`scan`, `getPixelColor`,
`setPixelColor`, `intToRGBA`, the constructor with a fill colour, `crop`,
`composite`).

Conventions.

* A bitmap is `width`, `height` and the flat row-major RGBA byte buffer
  `bitmap.data`; the byte of channel `c` of pixel `(x, y)` sits at index
  `(width * y + x) * 4 + c`.  Bytes are natural numbers; a buffer decoded by
  Jimp satisfies `Bitmap.WF` (length `width * height * 4`, every byte below 256).
* A store into the buffer (`data[i] = v`) converts `v` with the ECMAScript
  `ToUint8` conversion: the value is truncated toward zero and reduced modulo
  256; `NaN` is stored as 0.
* The arithmetic of the stylization and of the colour average is done by the
  program in IEEE doubles.  There every intermediate value is a fraction with
  denominator 2, 3, 6 or a pixel count, far from the precision limit, and the
  only place where a double is turned into an integer is a truncation or a
  `Math.round`; the integer formulas below give the same integers (the double
  is exact whenever the exact value is an integer or a half, and otherwise its
  error is much smaller than its distance to the next integer or half).
* The blend of `composite` is different: its bytes depend on how the doubles
  round, so the section "Doubles" represents them exactly.
* Decoding an upload and encoding the result as a JPEG file are outside the
  embedding; the functions below return the bitmap that is handed to
  `writeAsync`.
-/

namespace Pictures7

/-! ## Data model -/

/-- The object returned by `Jimp.intToRGBA`. -/
structure RGBA where
  r : Nat
  g : Nat
  b : Nat
  a : Nat
deriving DecidableEq, Repr

/-- The field `bitmap` of a Jimp image. -/
structure Bitmap where
  width : Nat
  height : Nat
  data : List Nat
deriving DecidableEq, Repr

/-- The buffer has four bytes per pixel and holds bytes. -/
def Bitmap.WF (img : Bitmap) : Prop :=
  img.data.length = img.width * img.height * 4 ∧ ∀ v ∈ img.data, v < 256

instance (img : Bitmap) : Decidable img.WF := by
  unfold Bitmap.WF; infer_instance

/-- `ToUint8` on an integral value: reduction modulo 256 into `0..255`. -/
def toUint8 (v : Int) : Nat := (v % 256).toNat

/-- `data[i]` for an index inside the buffer. -/
def readByte (data : List Nat) (i : Nat) : Nat := data.getD i 0

/-- `data[i] = v` for a byte `v`; a store outside the buffer is ignored. -/
def writeByte (data : List Nat) (i : Nat) (v : Nat) : List Nat := data.set i v

/-- The coordinates visited by `image.scan(0, 0, w, h, f)`: rows from top to
bottom, each row from left to right. -/
def scanCoords (w h : Nat) : List (Nat × Nat) :=
  (List.range h).flatMap fun y => (List.range w).map fun x => (x, y)

/-- `image.scan(0, 0, width, height, f)`: calls `f(x, y, idx)` with
`idx = (width * y + x) << 2` on every pixel; `s` is whatever the callback
mutates. -/
def Bitmap.scan {σ : Type} (img : Bitmap) (f : σ → Nat → Nat → Nat → σ) (s : σ) : σ :=
  (scanCoords img.width img.height).foldl
    (fun acc p => f acc p.1 p.2 ((img.width * p.2 + p.1) * 4)) s

/-! ## Stylization (`generateColoredIllustrationFromMemory`, first scan) -/

/-- The byte left in `data[idx + k]` by
`data[idx + k] = Math.min(255, c + (c - avg) * 0.5)` with `avg = (r + g + b) / 3`.
The right-hand side is `(9 c - (r + g + b)) / 6`; `Math.min` bounds it by 255
from above (nothing bounds it from below) and the store truncates it toward
zero and reduces it modulo 256. -/
def boostByte (c r g b : Nat) : Nat :=
  toUint8 (Int.tdiv (min (255 * 6) (9 * (c : Int) - ((r : Int) + g + b))) 6)

/-- The byte left in `data[idx + k]` by
`data[idx + k] = Math.round(data[idx + k] / 32) * 32`: `Math.round` of `d / 32`
is `⌊(d + 16) / 32⌋`, and the store reduces the product modulo 256. -/
def quantizeByte (d : Nat) : Nat :=
  toUint8 ((((d : Int) + 16) / 32) * 32)

/-- The callback of the stylization scan: reads `r`, `g`, `b` at `idx`, stores
the three boosted bytes, then replaces each of them by its quantization. -/
def stylizeStep (data : List Nat) (_x _y idx : Nat) : List Nat :=
  let r := readByte data (idx + 0)
  let g := readByte data (idx + 1)
  let b := readByte data (idx + 2)
  let data := writeByte data (idx + 0) (boostByte r r g b)
  let data := writeByte data (idx + 1) (boostByte g r g b)
  let data := writeByte data (idx + 2) (boostByte b r g b)
  let data := writeByte data (idx + 0) (quantizeByte (readByte data (idx + 0)))
  let data := writeByte data (idx + 1) (quantizeByte (readByte data (idx + 1)))
  let data := writeByte data (idx + 2) (quantizeByte (readByte data (idx + 2)))
  data

/-- The image `coloredImage` after the stylization scan. -/
def stylize (image : Bitmap) : Bitmap :=
  { image with data := image.scan stylizeStep image.data }

/-- The value the specification asks for channel `c` of a pixel `(r, g, b)`:
`clamp(round(c' / 32) * 32, 0, 255)` with `c' = clamp(c + (c - avg) * 0.5, 0, 255)`.
With `n = clamp(9 c - (r + g + b), 0, 6 * 255)` one has `c' = n / 6` and
`round(c' / 32) = ⌊(n + 96) / 192⌋`. -/
def specStylizeChannel (c r g b : Nat) : Int :=
  let n : Int := max 0 (min (255 * 6) (9 * (c : Int) - ((r : Int) + g + b)))
  max 0 (min 255 (((n + 96) / 192) * 32))

/-! ## Colour average (`analyzeTemplateColorsFromMemory`) -/

/-- The numbers `Math.round(total / pixelCount)` can be, for totals and counts
that are natural numbers: `NaN` (from `0 / 0`), `Infinity` (from `t / 0`,
`t > 0`) or a natural number. -/
inductive JsNum where
  | nan : JsNum
  | inf : JsNum
  | num (n : Nat) : JsNum
deriving DecidableEq, Repr

/-- `Math.round(total / pixelCount)`.  `Math.round` rounds to the nearest
integer and a half upward, so for `pixelCount > 0` the result is
`⌊(2 total + pixelCount) / (2 pixelCount)⌋`. -/
def roundDiv (total pixelCount : Nat) : JsNum :=
  if pixelCount = 0 then (if total = 0 then .nan else .inf)
  else .num ((2 * total + pixelCount) / (2 * pixelCount))

/-- The four accumulators `totalR`, `totalG`, `totalB`, `pixelCount`. -/
structure Totals where
  totalR : Nat
  totalG : Nat
  totalB : Nat
  pixelCount : Nat
deriving DecidableEq, Repr

/-- The object `avgColor`. -/
structure AvgColor where
  r : JsNum
  g : JsNum
  b : JsNum
deriving DecidableEq, Repr

/-- The object returned by `analyzeTemplateColorsFromMemory`. -/
structure StyleData where
  dominantColor : AvgColor
  colorCount : Nat
deriving DecidableEq, Repr

/-- The callback of the sampling scan of one image. -/
def sampleStep (img : Bitmap) (t : Totals) (_x _y idx : Nat) : Totals :=
  let r := readByte img.data (idx + 0)
  let g := readByte img.data (idx + 1)
  let b := readByte img.data (idx + 2)
  { totalR := t.totalR + r, totalG := t.totalG + g, totalB := t.totalB + b,
    pixelCount := t.pixelCount + 1 }

/-- The loop `for (const img of images) img.scan(...)`. -/
def accumulate (images : List Bitmap) (t : Totals) : Totals :=
  images.foldl (fun acc img => img.scan (sampleStep img) acc) t

/-- The function `analyzeTemplateColorsFromMemory`.  Its body has no `throw`
and calls nothing that fails on decoded images; the `catch` only logs and
rethrows, so the function returns on every sequence of images. -/
def analyzeTemplateColorsFromMemory (images : List Bitmap) : Except String StyleData :=
  let t := accumulate images ⟨0, 0, 0, 0⟩
  let avgColor : AvgColor :=
    { r := roundDiv t.totalR t.pixelCount
      g := roundDiv t.totalG t.pixelCount
      b := roundDiv t.totalB t.pixelCount }
  .ok { dominantColor := avgColor, colorCount := t.pixelCount }

/-- The sum of channel `c` (0, 1, 2 for r, g, b) over the pixels of one image. -/
def channelSum (c : Nat) (img : Bitmap) : Nat :=
  ((scanCoords img.width img.height).map
    fun p => readByte img.data ((img.width * p.2 + p.1) * 4 + c)).sum

/-- The sum of channel `c` over every pixel of every image. -/
def channelTotal (c : Nat) (images : List Bitmap) : Nat :=
  (images.map (channelSum c)).sum

/-- The number of pixels of all images together. -/
def pixelTotal (images : List Bitmap) : Nat :=
  (images.map fun img => img.width * img.height).sum

/-- The integer `r` is `total / count` rounded to the nearest integer, a half
being rounded upward. -/
def IsRoundedMean (total count r : Nat) : Prop :=
  (total : ℚ) / count - 1 / 2 < r ∧ (r : ℚ) ≤ (total : ℚ) / count + 1 / 2

/-! ## Jimp primitives -/

/-- The byte `k` (0 the most significant) of the 32-bit value `v` in
big-endian order. -/
def uint32Byte (v k : Nat) : Nat := v / 256 ^ (3 - k) % 256

/-- `data.readUInt32BE(i)`. -/
def readUInt32BE (data : List Nat) (i : Nat) : Nat :=
  ((readByte data i * 256 + readByte data (i + 1)) * 256 + readByte data (i + 2)) * 256
    + readByte data (i + 3)

/-- `data.writeUInt32BE(v, i)`. -/
def writeUInt32BE (data : List Nat) (v i : Nat) : List Nat :=
  let data := writeByte data i (uint32Byte v 0)
  let data := writeByte data (i + 1) (uint32Byte v 1)
  let data := writeByte data (i + 2) (uint32Byte v 2)
  writeByte data (i + 3) (uint32Byte v 3)

/-- `new Jimp(w, h, color)`: a buffer of `w * h` pixels, each holding the four
bytes of `color`. -/
def Bitmap.create (w h color : Nat) : Bitmap :=
  { width := w, height := h,
    data := (List.range (w * h * 4)).map fun i => uint32Byte color (i % 4) }

/-- `image.getPixelIndex(x, y)` with the default edge handling (`EDGE_EXTEND`)
on coordinates that are natural numbers: a coordinate past the last column or
row is replaced by the last one. -/
def Bitmap.getPixelIndex (img : Bitmap) (x y : Nat) : Nat :=
  let xi := if x ≥ img.width then img.width - 1 else x
  let yi := if y ≥ img.height then img.height - 1 else y
  (img.width * yi + xi) * 4

/-- `image.getPixelColor(x, y)`. -/
def Bitmap.getPixelColor (img : Bitmap) (x y : Nat) : Nat :=
  readUInt32BE img.data (img.getPixelIndex x y)

/-- `image.setPixelColor(hex, x, y)`. -/
def Bitmap.setPixelColor (img : Bitmap) (hex x y : Nat) : Bitmap :=
  { img with data := writeUInt32BE img.data hex (img.getPixelIndex x y) }

/-- `Jimp.intToRGBA(i)`. -/
def intToRGBA (i : Nat) : RGBA :=
  let r := i / 256 ^ 3
  let g := (i - r * 256 ^ 3) / 256 ^ 2
  let b := (i - r * 256 ^ 3 - g * 256 ^ 2) / 256
  let a := i - r * 256 ^ 3 - g * 256 ^ 2 - b * 256
  { r := r, g := g, b := b, a := a }

/-- `Math.abs(a - b)`. -/
def absDiff (a b : Nat) : Nat := Int.natAbs ((a : Int) - (b : Int))

/-! ## Outline (`generateOutlineDrawingFromMemory`) -/

/-- The callback of the edge scan of `generateOutlineDrawingFromMemory`;
`outline` is the canvas it paints on.  The callback returns at once on the
first and last column and row, so the coordinates `x - 1` and `y - 1` are
never negative; `thisPixel`, which the callback reads and never uses, is left
out.  The threshold 100 is a literal of the callback. -/
def outlineStep (image : Bitmap) (outline : Bitmap) (x y _idx : Nat) : Bitmap :=
  if x = 0 ∨ y = 0 ∨ x = image.width - 1 ∨ y = image.height - 1 then outline
  else
    let leftPixel := intToRGBA (image.getPixelColor (x - 1) y)
    let rightPixel := intToRGBA (image.getPixelColor (x + 1) y)
    let topPixel := intToRGBA (image.getPixelColor x (y - 1))
    let bottomPixel := intToRGBA (image.getPixelColor x (y + 1))
    let diffX := absDiff leftPixel.r rightPixel.r + absDiff leftPixel.g rightPixel.g
      + absDiff leftPixel.b rightPixel.b
    let diffY := absDiff topPixel.r bottomPixel.r + absDiff topPixel.g bottomPixel.g
      + absDiff topPixel.b bottomPixel.b
    if diffX > 100 ∨ diffY > 100 then outline.setPixelColor 0x000000ff x y
    else outline

/-- The canvas `outline` that `generateOutlineDrawingFromMemory` writes to the
output file: a white canvas of the size of the image, painted by the scan. -/
def generateOutlineDrawingFromMemory (image : Bitmap) : Bitmap :=
  let outline := Bitmap.create image.width image.height 0xffffffff
  image.scan (outlineStep image) outline

/-! ## Edge overlay of `generateColoredIllustrationFromMemory` -/

/-- The callback of the second scan of `generateColoredIllustrationFromMemory`
(`检测边缘`), which reads `coloredImage` and paints on `outline`; the unused
`thisPixel` is left out. -/
def coloredEdgeStep (coloredImage : Bitmap) (outline : Bitmap) (x y _idx : Nat) : Bitmap :=
  if x = 0 ∨ y = 0 ∨ x = coloredImage.width - 1 ∨ y = coloredImage.height - 1 then outline
  else
    let leftPixel := intToRGBA (coloredImage.getPixelColor (x - 1) y)
    let rightPixel := intToRGBA (coloredImage.getPixelColor (x + 1) y)
    let topPixel := intToRGBA (coloredImage.getPixelColor x (y - 1))
    let bottomPixel := intToRGBA (coloredImage.getPixelColor x (y + 1))
    let diffX := absDiff leftPixel.r rightPixel.r + absDiff leftPixel.g rightPixel.g
      + absDiff leftPixel.b rightPixel.b
    let diffY := absDiff topPixel.r bottomPixel.r + absDiff topPixel.g bottomPixel.g
      + absDiff topPixel.b bottomPixel.b
    if diffX > 100 ∨ diffY > 100 then outline.setPixelColor 0x000000ff x y
    else outline

/-- The image `outline` of `generateColoredIllustrationFromMemory` just before
the composite: a transparent canvas painted by the scan of the stylized
`coloredImage`. -/
def coloredEdgeOverlay (image : Bitmap) : Bitmap :=
  let coloredImage := stylize image
  let outline := Bitmap.create coloredImage.width coloredImage.height 0x00000000
  coloredImage.scan (coloredEdgeStep coloredImage) outline

/-! ## Reading a result -/

/-- The four bytes of the pixel that starts at index `i` of a buffer. -/
def pixAt (data : List Nat) (i : Nat) : RGBA :=
  { r := readByte data i, g := readByte data (i + 1), b := readByte data (i + 2),
    a := readByte data (i + 3) }

/-- The pixel `(x, y)` of a bitmap. -/
def Bitmap.pixel (img : Bitmap) (x y : Nat) : RGBA :=
  pixAt img.data ((img.width * y + x) * 4)

/-- Opaque black. -/
def black : RGBA := { r := 0, g := 0, b := 0, a := 255 }

/-- Opaque white. -/
def white : RGBA := { r := 255, g := 255, b := 255, a := 255 }

/-- Fully transparent (black). -/
def transparent : RGBA := { r := 0, g := 0, b := 0, a := 0 }

/-- The sum over r, g, b of the absolute differences of two pixels. -/
def colorDiff (p q : RGBA) : Nat :=
  absDiff p.r q.r + absDiff p.g q.g + absDiff p.b q.b

/-- The detection rule of the specification at `(x, y)`: an interior pixel
whose left and right neighbours, or top and bottom neighbours, differ by more
than 100. -/
def IsEdge (img : Bitmap) (x y : Nat) : Prop :=
  0 < x ∧ x < img.width - 1 ∧ 0 < y ∧ y < img.height - 1 ∧
    (colorDiff (img.pixel (x - 1) y) (img.pixel (x + 1) y) > 100 ∨
      colorDiff (img.pixel x (y - 1)) (img.pixel x (y + 1)) > 100)

instance (img : Bitmap) (x y : Nat) : Decidable (IsEdge img x y) := by
  unfold IsEdge; infer_instance

/-! ## Auxiliary notions of the proofs -/

/-- The test made by the callbacks of both edge scans at `(x, y)`, on the
image they read: not on the border, and one of the two differences above 100. -/
def edgeTest (img : Bitmap) (x y : Nat) : Prop :=
  ¬ (x = 0 ∨ y = 0 ∨ x = img.width - 1 ∨ y = img.height - 1) ∧
    (colorDiff (intToRGBA (img.getPixelColor (x - 1) y))
        (intToRGBA (img.getPixelColor (x + 1) y)) > 100 ∨
      colorDiff (intToRGBA (img.getPixelColor x (y - 1)))
        (intToRGBA (img.getPixelColor x (y + 1))) > 100)

instance (img : Bitmap) (x y : Nat) : Decidable (edgeTest img x y) := by
  unfold edgeTest; infer_instance

/-- The index of the first byte of the pixel `p = (x, y)` in a buffer of
width `w`. -/
def pixIdx (w : Nat) (p : Nat × Nat) : Nat := (w * p.2 + p.1) * 4

/-- The size invariant of a canvas during a scan. -/
def Bitmap.HasSize (img : Bitmap) (w h : Nat) : Prop :=
  img.width = w ∧ img.height = h ∧ img.data.length = w * h * 4

/-- The colour `(r, g, b)` of a pixel. -/
def RGBA.rgb (p : RGBA) : Nat × Nat × Nat := (p.r, p.g, p.b)

/-- A 4 × 3 image whose two left columns are black and whose two right columns
are white. -/
def twoHalves : Bitmap :=
  { width := 4, height := 3,
    data := [0, 0, 0, 255, 0, 0, 0, 255, 255, 255, 255, 255, 255, 255, 255, 255,
             0, 0, 0, 255, 0, 0, 0, 255, 255, 255, 255, 255, 255, 255, 255, 255,
             0, 0, 0, 255, 0, 0, 0, 255, 255, 255, 255, 255, 255, 255, 255, 255] }

/-! ## Thumbnail (`createThumbnailFromMemory`) -/

/-- `Math.round` on an exact value: the nearest integer, a half upward. -/
def mathRound (q : ℚ) : Int := ⌊q + 1 / 2⌋

/-- The arguments `(x, y, size, size)` that `createThumbnailFromMemory` passes
to `thumbnail.crop`: `size = Math.min(width, height)`, `x = (width - size) / 2`,
`y = (height - size) / 2`.  Nothing rounds or truncates `x` and `y` here; they
are halves of integers and exact as doubles. -/
def thumbnailCropArgs (image : Bitmap) : ℚ × ℚ × ℚ × ℚ :=
  let size : ℚ := min image.width image.height
  let x := ((image.width : ℚ) - size) / 2
  let y := ((image.height : ℚ) - size) / 2
  (x, y, size, size)

/-- The rectangle a crop cuts out: origin `(x, y)`, width `w`, height `h`. -/
structure CropRect where
  x : Int
  y : Int
  w : Int
  h : Int
deriving DecidableEq, Repr

/-- The rectangle cut out by Jimp's `crop(x, y, w, h)`, which first replaces
each of its four arguments by its `Math.round`. -/
def cropRect (args : ℚ × ℚ × ℚ × ℚ) : CropRect :=
  { x := mathRound args.1, y := mathRound args.2.1, w := mathRound args.2.2.1,
    h := mathRound args.2.2.2 }

/-- The square that `createThumbnailFromMemory` crops out of the image before
resizing it to 200 × 200. -/
def createThumbnailCrop (image : Bitmap) : CropRect :=
  cropRect (thumbnailCropArgs image)

/-! ## Doubles

The blend of `composite` divides by 255 and by the resulting alpha, so its
results depend on the rounding of IEEE doubles.  A finite double is
represented exactly by an integer mantissa `m` and an exponent `e`, with value
`m * 2 ^ e`; every operation computes the exact result and rounds it to 53
significant bits, ties to even.  The exponent range is not bounded (the finite
values of the blend are 0 or of magnitude between `2 ^ (-17)` and `2 ^ 10`), and
the negative zero is not represented (no value of the blend is negative). -/

/-- The number of binary digits of `n`, by halving, with fuel. -/
def bitLengthAux : Nat → Nat → Nat
  | 0, _ => 0
  | fuel + 1, n => if n = 0 then 0 else bitLengthAux fuel (n / 2) + 1

/-- The number of binary digits of `n` (0 for `n = 0`). -/
def bitLength (n : Nat) : Nat := bitLengthAux n n

/-- A JavaScript number: `NaN`, an infinity with its sign, or the finite value
`m * 2 ^ e`. -/
inductive Dbl where
  | nan : Dbl
  | inf (neg : Bool) : Dbl
  | fin (m : Int) (e : Int) : Dbl
deriving DecidableEq, Repr

namespace Dbl

/-- The number 0. -/
def zero : Dbl := fin 0 0

/-- A natural number below `2 ^ 53`, which is exact as a double. -/
def ofNat (n : Nat) : Dbl := fin n 0

/-- The value `n * 2 ^ e`, `n > 0`, rounded to 53 significant bits, ties to
even: a mantissa and an exponent. -/
def roundNat (n : Nat) (e : Int) : Nat × Int :=
  let len := bitLength n
  if len ≤ 53 then (n, e)
  else
    let sh := len - 53
    let q := n / 2 ^ sh
    let r := n % 2 ^ sh
    let half := 2 ^ (sh - 1)
    let q := if r > half ∨ (r = half ∧ q % 2 = 1) then q + 1 else q
    (q, e + sh)

/-- The double nearest to `m * 2 ^ e`. -/
def round (m : Int) (e : Int) : Dbl :=
  if m = 0 then zero
  else
    let qe := roundNat m.natAbs e
    fin (if m < 0 then -(qe.1 : Int) else qe.1) qe.2

/-- Unary minus. -/
def neg : Dbl → Dbl
  | nan => nan
  | inf s => inf (!s)
  | fin m e => fin (-m) e

/-- The sum `a + b`. -/
def add : Dbl → Dbl → Dbl
  | nan, _ => nan
  | _, nan => nan
  | inf s, inf t => if s = t then inf s else nan
  | inf s, fin _ _ => inf s
  | fin _ _, inf t => inf t
  | fin m₁ e₁, fin m₂ e₂ =>
    let e := min e₁ e₂
    round (m₁ * 2 ^ (e₁ - e).toNat + m₂ * 2 ^ (e₂ - e).toNat) e

/-- The difference `a - b`. -/
def sub (a b : Dbl) : Dbl := add a (neg b)

/-- The product `a * b`. -/
def mul : Dbl → Dbl → Dbl
  | nan, _ => nan
  | _, nan => nan
  | inf s, inf t => inf (s != t)
  | inf s, fin m _ => if m = 0 then nan else inf (s != decide (m < 0))
  | fin m _, inf t => if m = 0 then nan else inf (decide (m < 0) != t)
  | fin m₁ e₁, fin m₂ e₂ => round (m₁ * m₂) (e₁ + e₂)

/-- The quotient `a / b`; `0 / 0` is `NaN`.  For finite operands the quotient
of the mantissas is computed to at least 64 bits, with one more bit that
records whether the division left a remainder, and then rounded. -/
def div : Dbl → Dbl → Dbl
  | nan, _ => nan
  | _, nan => nan
  | inf _, inf _ => nan
  | inf s, fin m _ => inf (s != decide (m < 0))
  | fin _ _, inf _ => zero
  | fin m₁ e₁, fin m₂ e₂ =>
    if m₂ = 0 then (if m₁ = 0 then nan else inf (decide (m₁ < 0)))
    else
      let k := 64 + bitLength m₂.natAbs
      let q := m₁.natAbs * 2 ^ k / m₂.natAbs
      let sticky := if m₁.natAbs * 2 ^ k % m₂.natAbs = 0 then 0 else 1
      let mant : Int := ((2 * q + sticky : Nat) : Int)
      round (if (m₁ < 0) = (m₂ < 0) then mant else -mant) (e₁ - e₂ - k - 1)

/-- The comparison `m₁ * 2 ^ e₁ ≤ m₂ * 2 ^ e₂`. -/
def finLe (m₁ e₁ m₂ e₂ : Int) : Bool :=
  let e := min e₁ e₂
  decide (m₁ * 2 ^ (e₁ - e).toNat ≤ m₂ * 2 ^ (e₂ - e).toNat)

/-- `Jimp.limit255(n)`, that is `Math.min(Math.max(n, 0), 255)`; `NaN` stays
`NaN`. -/
def limit255 : Dbl → Dbl
  | nan => nan
  | inf s => if s then zero else ofNat 255
  | fin m e => if m < 0 then zero else if finLe m e 255 0 then fin m e else ofNat 255

/-- The byte left by `data[i] = v`: `ToUint8` of `v`, which is 0 for `NaN` and
the infinities. -/
def store : Dbl → Nat
  | nan => 0
  | inf _ => 0
  | fin m e => toUint8 (if 0 ≤ e then m * 2 ^ e.toNat else Int.tdiv m (2 ^ (-e).toNat))

end Dbl

/-! ## Composite (Jimp `composite` with `mode: Jimp.BLEND_SOURCE_OVER`) -/

/-- A colour with channels in `[0, 1]`, the argument and result of a blend
mode. -/
structure BlendColor where
  r : Dbl
  g : Dbl
  b : Dbl
  a : Dbl

/-- The blend mode `srcOver(src, dst, ops)` of Jimp. -/
def srcOver (src dst : BlendColor) (ops : Dbl) : BlendColor :=
  let srcA := Dbl.mul src.a ops
  let a := Dbl.sub (Dbl.add dst.a srcA) (Dbl.mul dst.a srcA)
  let r := Dbl.div (Dbl.add (Dbl.mul src.r srcA)
    (Dbl.mul (Dbl.mul dst.r dst.a) (Dbl.sub (Dbl.ofNat 1) srcA))) a
  let g := Dbl.div (Dbl.add (Dbl.mul src.g srcA)
    (Dbl.mul (Dbl.mul dst.g dst.a) (Dbl.sub (Dbl.ofNat 1) srcA))) a
  let b := Dbl.div (Dbl.add (Dbl.mul src.b srcA)
    (Dbl.mul (Dbl.mul dst.b dst.a) (Dbl.sub (Dbl.ofNat 1) srcA))) a
  { r := r, g := g, b := b, a := a }

/-- `baseImage.getPixelIndex(x, y, Jimp.EDGE_CROP)`: the index of the pixel, or
nothing (`-1`) outside the image. -/
def Bitmap.getPixelIndexCrop (img : Bitmap) (x y : Nat) : Option Nat :=
  if x ≥ img.width ∨ y ≥ img.height then none else some ((img.width * y + x) * 4)

/-- The callback of the scan of `src` in `baseImage.composite(src, x, y, ...)`:
the pixel of `src` at `idx` is blended over the pixel of `baseImage` at
`(x + sx, y + sy)`, which is skipped when it lies outside `baseImage`. -/
def compositeStep (src : Bitmap) (x y : Nat) (opacitySource : Dbl) (baseImage : Bitmap)
    (sx sy idx : Nat) : Bitmap :=
  match baseImage.getPixelIndexCrop (x + sx) (y + sy) with
  | none => baseImage
  | some dstIdx =>
    let blended := srcOver
      { r := Dbl.div (Dbl.ofNat (readByte src.data (idx + 0))) (Dbl.ofNat 255)
        g := Dbl.div (Dbl.ofNat (readByte src.data (idx + 1))) (Dbl.ofNat 255)
        b := Dbl.div (Dbl.ofNat (readByte src.data (idx + 2))) (Dbl.ofNat 255)
        a := Dbl.div (Dbl.ofNat (readByte src.data (idx + 3))) (Dbl.ofNat 255) }
      { r := Dbl.div (Dbl.ofNat (readByte baseImage.data (dstIdx + 0))) (Dbl.ofNat 255)
        g := Dbl.div (Dbl.ofNat (readByte baseImage.data (dstIdx + 1))) (Dbl.ofNat 255)
        b := Dbl.div (Dbl.ofNat (readByte baseImage.data (dstIdx + 2))) (Dbl.ofNat 255)
        a := Dbl.div (Dbl.ofNat (readByte baseImage.data (dstIdx + 3))) (Dbl.ofNat 255) }
      opacitySource
    let data := baseImage.data
    let data := writeByte data (dstIdx + 0)
      (Dbl.store (Dbl.limit255 (Dbl.mul blended.r (Dbl.ofNat 255))))
    let data := writeByte data (dstIdx + 1)
      (Dbl.store (Dbl.limit255 (Dbl.mul blended.g (Dbl.ofNat 255))))
    let data := writeByte data (dstIdx + 2)
      (Dbl.store (Dbl.limit255 (Dbl.mul blended.b (Dbl.ofNat 255))))
    let data := writeByte data (dstIdx + 3)
      (Dbl.store (Dbl.limit255 (Dbl.mul blended.a (Dbl.ofNat 255))))
    { baseImage with data := data }

/-- `baseImage.composite(src, x, y, { mode: Jimp.BLEND_SOURCE_OVER,
opacitySource, opacityDest: 1 })`; with `opacityDest` equal to 1 the base is
not faded before the scan. -/
def Bitmap.composite (baseImage src : Bitmap) (x y : Nat) (opacitySource : Dbl) : Bitmap :=
  src.scan (compositeStep src x y opacitySource) baseImage

/-- The image that `generateColoredIllustrationFromMemory` writes to the output
file: the stylized copy of the photo with the edge overlay composited on it. -/
def generateColoredIllustrationFromMemory (image : Bitmap) : Bitmap :=
  let coloredImage := stylize image
  let outline := coloredEdgeOverlay image
  coloredImage.composite outline 0 0 (Dbl.ofNat 1)

/-- The pixel `Jimp.composite` leaves where the pixel `src` is blended over the
pixel `dst`. -/
def blendPixel (src dst : RGBA) (opacitySource : Dbl) : RGBA :=
  let blended := srcOver
    { r := Dbl.div (Dbl.ofNat src.r) (Dbl.ofNat 255)
      g := Dbl.div (Dbl.ofNat src.g) (Dbl.ofNat 255)
      b := Dbl.div (Dbl.ofNat src.b) (Dbl.ofNat 255)
      a := Dbl.div (Dbl.ofNat src.a) (Dbl.ofNat 255) }
    { r := Dbl.div (Dbl.ofNat dst.r) (Dbl.ofNat 255)
      g := Dbl.div (Dbl.ofNat dst.g) (Dbl.ofNat 255)
      b := Dbl.div (Dbl.ofNat dst.b) (Dbl.ofNat 255)
      a := Dbl.div (Dbl.ofNat dst.a) (Dbl.ofNat 255) }
    opacitySource
  { r := Dbl.store (Dbl.limit255 (Dbl.mul blended.r (Dbl.ofNat 255)))
    g := Dbl.store (Dbl.limit255 (Dbl.mul blended.g (Dbl.ofNat 255)))
    b := Dbl.store (Dbl.limit255 (Dbl.mul blended.b (Dbl.ofNat 255)))
    a := Dbl.store (Dbl.limit255 (Dbl.mul blended.a (Dbl.ofNat 255))) }


/-- The double `v / 255` of a byte `v`. -/
def chan (v : Nat) : Dbl := Dbl.div (Dbl.ofNat v) (Dbl.ofNat 255)

/-- The colour byte `Jimp.composite` leaves in a channel where the source has
the byte `s` and alpha `sa` and the base has the byte `d` and alpha `da`. -/
def blendChan (s sa d da : Nat) (ops : Dbl) : Nat :=
  Dbl.store (Dbl.limit255 (Dbl.mul
    (Dbl.div
      (Dbl.add (Dbl.mul (chan s) (Dbl.mul (chan sa) ops))
        (Dbl.mul (Dbl.mul (chan d) (chan da))
          (Dbl.sub (Dbl.ofNat 1) (Dbl.mul (chan sa) ops))))
      (Dbl.sub (Dbl.add (chan da) (Dbl.mul (chan sa) ops))
        (Dbl.mul (chan da) (Dbl.mul (chan sa) ops))))
    (Dbl.ofNat 255)))

/-- The alpha byte `Jimp.composite` leaves where the source has alpha `sa` and
the base has alpha `da`. -/
def blendAlpha (sa da : Nat) (ops : Dbl) : Nat :=
  Dbl.store (Dbl.limit255 (Dbl.mul
    (Dbl.sub (Dbl.add (chan da) (Dbl.mul (chan sa) ops))
      (Dbl.mul (chan da) (Dbl.mul (chan sa) ops)))
    (Dbl.ofNat 255)))


/-- The effect of the stylization callback on one pixel: each colour byte is
boosted, stored, and replaced by its quantization; alpha is not touched. -/
def stylizePixel (p : RGBA) : RGBA :=
  { r := quantizeByte (boostByte p.r p.r p.g p.b)
    g := quantizeByte (boostByte p.g p.r p.g p.b)
    b := quantizeByte (boostByte p.b p.r p.g p.b)
    a := p.a }


/-! ## Conversion route (`POST /api/convert`) -/

/-- The fields of a conversion request that the handler reads.  `templateId`,
`generateOutline` and `generateColored` are form fields, strings or absent;
`photo` is the uploaded file: absent, or the outcome of `Jimp.read` on its
bytes, which is an image or nothing when `Jimp.read` throws. -/
structure ConvertRequest where
  templateId : Option String
  photo : Option (Option Bitmap)
  generateOutline : Option String
  generateColored : Option String

/-- What the handler does not decide itself: the environment flag `isVercel`,
the clock, whether `writeAsync` succeeds inside
`generateOutlineDrawingFromMemory` and `generateColoredIllustrationFromMemory`
(otherwise the call throws), and the booleans returned by the two calls of
`safeCopyFile`, which never throws. -/
structure ConvertEnv where
  isVercel : Bool
  timestamp : Nat
  writeOutline : Bool
  writeColored : Bool
  copyOutline : Bool
  copyColored : Bool

/-- The object `results`. -/
structure ConvertResults where
  outline : Option String
  colored : Option String
deriving DecidableEq, Repr

/-- The answer of the handler: `res.status(code).json({ error })`, or
`res.json(results)`. -/
inductive ConvertResponse where
  | error (status : Nat) (message : String) : ConvertResponse
  | json (results : ConvertResults) : ConvertResponse
deriving DecidableEq, Repr

/-- A call of one of the two generating functions, recorded with the file name
and the bitmap it hands to `writeAsync`, whether or not the write succeeds. -/
inductive ConvertEffect where
  | generate (fileName : String) (bitmap : Bitmap) : ConvertEffect
deriving DecidableEq, Repr

/-- The state of the handler between the branches. -/
structure ConvertState where
  results : ConvertResults
  effects : List ConvertEffect

/-- `!v` for a value that is a string or `undefined`. -/
def falsy (v : Option String) : Bool :=
  match v with
  | none => true
  | some s => s = ""

/-- The message of the answer sent when `results` holds neither output. -/
def noOutputMessage : String := "转换失败，无法生成任何图片"

/-- The file name `outline-${timestamp}.jpg`. -/
def outlineFileName (env : ConvertEnv) : String :=
  "outline-" ++ toString env.timestamp ++ ".jpg"

/-- The file name `colored-${timestamp}.jpg`. -/
def coloredFileName (env : ConvertEnv) : String :=
  "colored-" ++ toString env.timestamp ++ ".jpg"

/-- The block `if (generateOutline === 'true') { try { ... } catch { ... } }`.
A throw of the generating function is caught, logged, and the handler goes on. -/
def outlineBranch (env : ConvertEnv) (req : ConvertRequest) (image : Bitmap)
    (s : ConvertState) : ConvertState :=
  if req.generateOutline = some "true" then
    let s := { s with effects := s.effects ++
      [.generate (outlineFileName env) (generateOutlineDrawingFromMemory image)] }
    if env.writeOutline then
      if env.isVercel then
        if env.copyOutline then
          { s with results := { s.results with
              outline := some ("/outputs/" ++ outlineFileName env) } }
        else s
      else
        { s with results := { s.results with
            outline := some ("/outputs/" ++ outlineFileName env) } }
    else s
  else s

/-- The block `if (generateColored === 'true') { try { ... } catch { ... } }`. -/
def coloredBranch (env : ConvertEnv) (req : ConvertRequest) (image : Bitmap)
    (s : ConvertState) : ConvertState :=
  if req.generateColored = some "true" then
    let s := { s with effects := s.effects ++
      [.generate (coloredFileName env) (generateColoredIllustrationFromMemory image)] }
    if env.writeColored then
      if env.isVercel then
        if env.copyColored then
          { s with results := { s.results with
              colored := some ("/outputs/" ++ coloredFileName env) } }
        else s
      else
        { s with results := { s.results with
            colored := some ("/outputs/" ++ coloredFileName env) } }
    else s
  else s

/-- The handler of `POST /api/convert`, with the identifiers of the registered
templates: its answer and the calls of the generating functions it made. -/
def convertHandler (templates : List String) (env : ConvertEnv) (req : ConvertRequest) :
    ConvertResponse × List ConvertEffect :=
  if falsy req.templateId ∨ req.photo.isNone then
    (.error 400 "需要模板ID和照片", [])
  else if ¬ templates.any (fun t => some t = req.templateId) then
    (.error 404 "模板不存在", [])
  else
    match req.photo with
    | some (some image) =>
      let s : ConvertState := { results := { outline := none, colored := none }, effects := [] }
      let s := outlineBranch env req image s
      let s := coloredBranch env req image s
      if falsy s.results.outline ∧ falsy s.results.colored then
        (.error 500 noOutputMessage, s.effects)
      else (.json s.results, s.effects)
    | _ => (.error 400 "无法读取上传的图片，请检查图片格式", [])

/-- The outline branch of a request produced a result: it was requested and
its file was written. -/
def outlineProduced (env : ConvertEnv) (req : ConvertRequest) : Prop :=
  req.generateOutline = some "true" ∧ env.writeOutline = true

/-- The colored branch of a request produced a result: it was requested and
its file was written. -/
def coloredProduced (env : ConvertEnv) (req : ConvertRequest) : Prop :=
  req.generateColored = some "true" ∧ env.writeColored = true

instance (env : ConvertEnv) (req : ConvertRequest) : Decidable (outlineProduced env req) := by
  unfold outlineProduced; infer_instance

instance (env : ConvertEnv) (req : ConvertRequest) : Decidable (coloredProduced env req) := by
  unfold coloredProduced; infer_instance


/-- A request for both outputs on a one-pixel photo, for the template `t1`. -/
def sampleRequest : ConvertRequest :=
  { templateId := some "t1", photo := some (some ⟨1, 1, [1, 2, 3, 255]⟩),
    generateOutline := some "true", generateColored := some "true" }

/-- An environment on Vercel in which writing the outline fails, writing the
colored illustration succeeds and both copies succeed. -/
def sampleEnv : ConvertEnv :=
  { isVercel := true, timestamp := 7, writeOutline := false, writeColored := true,
    copyOutline := true, copyColored := true }


/-! ## Error bounds of the doubles -/

/-- The relative precision of a rounding: `2 ^ (-53)`. -/
def ulpHalf : ℚ := 1 / 2 ^ 53

/-- The factor by which one operation may move a value: `1 + 2 ^ (-50)`. -/
def rho : ℚ := 1 + 1 / 2 ^ 50

/-- The double `x` is finite, not negative, and within the factor `rho ^ k` of
the exact value `V`, which is not negative. -/
def Dbl.Near (x : Dbl) (V : ℚ) (k : Nat) : Prop :=
  0 ≤ V ∧ ∃ m e : Int, x = .fin m e ∧ 0 ≤ m ∧
    V / rho ^ k ≤ (m : ℚ) * (2 : ℚ) ^ e ∧ (m : ℚ) * (2 : ℚ) ^ e ≤ V * rho ^ k

/-- The byte `c'` is the byte `c` or one lower. -/
def SameOrOneLower (c' c : Nat) : Prop := c' = c ∨ c' + 1 = c

instance (c' c : Nat) : Decidable (SameOrOneLower c' c) := by
  unfold SameOrOneLower; infer_instance

/-- A 3 × 1 base with an opaque, a translucent and a fully transparent pixel. -/
def sampleBase : Bitmap :=
  { width := 3, height := 1, data := [32, 64, 224, 255, 96, 224, 0, 3, 96, 0, 32, 0] }

/-- A fully transparent 3 × 1 overlay. -/
def sampleOverlay : Bitmap :=
  { width := 3, height := 1, data := [0, 0, 0, 0, 0, 0, 0, 0, 0, 0, 0, 0] }

/-! # Proofs -/

/-! ## Colour average -/

theorem length_scanCoords (w h : Nat) : (scanCoords w h).length = w * h := by
  induction h with
  | zero => simp [scanCoords]
  | succ n ih =>
    simp only [scanCoords] at ih ⊢
    rw [List.range_succ, List.flatMap_append, List.length_append, ih]
    simp [Nat.mul_succ]

theorem foldl_sampleStep (img : Bitmap) (L : List (Nat × Nat)) (t : Totals) :
    L.foldl (fun acc p => sampleStep img acc p.1 p.2 ((img.width * p.2 + p.1) * 4)) t =
      { totalR := t.totalR +
          (L.map fun p => readByte img.data ((img.width * p.2 + p.1) * 4 + 0)).sum
        totalG := t.totalG +
          (L.map fun p => readByte img.data ((img.width * p.2 + p.1) * 4 + 1)).sum
        totalB := t.totalB +
          (L.map fun p => readByte img.data ((img.width * p.2 + p.1) * 4 + 2)).sum
        pixelCount := t.pixelCount + L.length } := by
  induction L generalizing t with
  | nil => simp
  | cons p L ih =>
    rw [List.foldl_cons, ih]
    simp [sampleStep, Nat.add_assoc, Nat.add_comm 1]

theorem scan_sampleStep (img : Bitmap) (t : Totals) :
    img.scan (sampleStep img) t =
      { totalR := t.totalR + channelSum 0 img
        totalG := t.totalG + channelSum 1 img
        totalB := t.totalB + channelSum 2 img
        pixelCount := t.pixelCount + img.width * img.height } := by
  unfold Bitmap.scan channelSum
  rw [foldl_sampleStep, length_scanCoords]

theorem accumulate_eq (images : List Bitmap) (t : Totals) :
    accumulate images t =
      { totalR := t.totalR + channelTotal 0 images
        totalG := t.totalG + channelTotal 1 images
        totalB := t.totalB + channelTotal 2 images
        pixelCount := t.pixelCount + pixelTotal images } := by
  induction images generalizing t with
  | nil => simp [accumulate, channelTotal, pixelTotal]
  | cons img images ih =>
    have h := ih (img.scan (sampleStep img) t)
    simp only [accumulate, List.foldl_cons] at h ⊢
    rw [h, scan_sampleStep]
    simp [channelTotal, pixelTotal, Nat.add_assoc]

theorem analyze_eq (images : List Bitmap) :
    analyzeTemplateColorsFromMemory images =
      .ok { dominantColor :=
              { r := roundDiv (channelTotal 0 images) (pixelTotal images)
                g := roundDiv (channelTotal 1 images) (pixelTotal images)
                b := roundDiv (channelTotal 2 images) (pixelTotal images) }
            colorCount := pixelTotal images } := by
  simp [analyzeTemplateColorsFromMemory, accumulate_eq]

theorem readByte_lt_of_WF {img : Bitmap} (h : img.WF) (i : Nat) :
    readByte img.data i < 256 := by
  unfold readByte
  rw [List.getD_eq_getElem?_getD]
  by_cases hi : i < img.data.length
  · rw [List.getElem?_eq_getElem hi]
    exact h.2 _ (List.getElem_mem hi)
  · rw [List.getElem?_eq_none (Nat.le_of_not_lt hi)]
    simp

theorem channelSum_le {img : Bitmap} (h : img.WF) (c : Nat) :
    channelSum c img ≤ 255 * (img.width * img.height) := by
  unfold channelSum
  have hb := List.sum_le_card_nsmul
    ((scanCoords img.width img.height).map
      fun p => readByte img.data ((img.width * p.2 + p.1) * 4 + c)) 255 (by
        intro v hv
        obtain ⟨p, -, rfl⟩ := List.mem_map.1 hv
        exact Nat.le_of_lt_succ (readByte_lt_of_WF h _))
  rw [List.length_map, length_scanCoords, smul_eq_mul] at hb
  rw [Nat.mul_comm]
  exact hb

theorem channelTotal_le {images : List Bitmap} (h : ∀ img ∈ images, img.WF) (c : Nat) :
    channelTotal c images ≤ 255 * pixelTotal images := by
  induction images with
  | nil => simp [channelTotal, pixelTotal]
  | cons img images ih =>
    have h1 := channelSum_le (h img (List.mem_cons_self _ _)) c
    have h2 := ih fun i hi => h i (List.mem_cons_of_mem _ hi)
    simp only [channelTotal, pixelTotal, List.map_cons, List.sum_cons] at h2 ⊢
    omega

theorem roundDiv_spec {total count : Nat} (hc : 0 < count) (ht : total ≤ 255 * count) :
    ∃ r, roundDiv total count = .num r ∧ r ≤ 255 ∧ IsRoundedMean total count r := by
  refine ⟨(2 * total + count) / (2 * count), ?_, ?_, ?_⟩
  · simp [roundDiv, Nat.pos_iff_ne_zero.1 hc]
  · apply Nat.le_of_lt_succ
    rw [Nat.div_lt_iff_lt_mul (by omega)]
    omega
  · have hlo : (2 * total + count) / (2 * count) * (2 * count) ≤ 2 * total + count :=
      Nat.div_mul_le_self _ _
    have hhi : 2 * total + count <
        (2 * total + count) / (2 * count) * (2 * count) + 2 * count :=
      Nat.lt_div_mul_add (by omega)
    generalize (2 * total + count) / (2 * count) = r at hlo hhi
    have hcq : (0 : ℚ) < count := by exact_mod_cast hc
    have hlo' : (r : ℚ) * (2 * count) ≤ 2 * total + count := by exact_mod_cast hlo
    have hhi' : (2 * total + count : ℚ) < r * (2 * count) + 2 * count := by exact_mod_cast hhi
    constructor
    · rw [sub_lt_iff_lt_add, div_lt_iff₀ hcq]
      nlinarith
    · rw [← sub_le_iff_le_add, le_div_iff₀ hcq]
      nlinarith

theorem channelTotal_perm {l₁ l₂ : List Bitmap} (h : l₁.Perm l₂) (c : Nat) :
    channelTotal c l₁ = channelTotal c l₂ :=
  (h.map (channelSum c)).sum_eq

theorem pixelTotal_perm {l₁ l₂ : List Bitmap} (h : l₁.Perm l₂) :
    pixelTotal l₁ = pixelTotal l₂ :=
  (h.map fun img : Bitmap => img.width * img.height).sum_eq

theorem channelTotal_append (c : Nat) (l₁ l₂ : List Bitmap) :
    channelTotal c (l₁ ++ l₂) = channelTotal c l₁ + channelTotal c l₂ := by
  simp [channelTotal]

theorem pixelTotal_append (l₁ l₂ : List Bitmap) :
    pixelTotal (l₁ ++ l₂) = pixelTotal l₁ + pixelTotal l₂ := by
  simp [pixelTotal]

theorem channelTotal_replicate (c k : Nat) (l : List Bitmap) :
    channelTotal c (List.replicate k l).flatten = k * channelTotal c l := by
  induction k with
  | zero => simp [channelTotal]
  | succ n ih =>
    rw [List.replicate_succ, List.flatten_cons, channelTotal_append, ih]
    ring

theorem pixelTotal_replicate (k : Nat) (l : List Bitmap) :
    pixelTotal (List.replicate k l).flatten = k * pixelTotal l := by
  induction k with
  | zero => simp [pixelTotal]
  | succ n ih =>
    rw [List.replicate_succ, List.flatten_cons, pixelTotal_append, ih]
    ring

theorem channelSum_eq_zero {img : Bitmap} (h : img.width * img.height = 0) (c : Nat) :
    channelSum c img = 0 := by
  have hl : scanCoords img.width img.height = [] :=
    List.eq_nil_of_length_eq_zero (by rw [length_scanCoords, h])
  simp [channelSum, hl]

theorem channelTotal_eq_zero {images : List Bitmap} (h : pixelTotal images = 0) (c : Nat) :
    channelTotal c images = 0 := by
  induction images with
  | nil => rfl
  | cons img images ih =>
    simp only [pixelTotal, List.map_cons, List.sum_cons, Nat.add_eq_zero] at h
    simp only [channelTotal, List.map_cons, List.sum_cons, Nat.add_eq_zero]
    exact ⟨channelSum_eq_zero h.1 c, ih h.2⟩

theorem roundDiv_mul {k : Nat} (hk : 0 < k) (total count : Nat) :
    roundDiv (k * total) (k * count) = roundDiv total count := by
  have hk0 : k ≠ 0 := Nat.pos_iff_ne_zero.1 hk
  unfold roundDiv
  by_cases hc : count = 0
  · simp [hc, hk0]
  · have e : 2 * (k * total) + k * count = k * (2 * total + count) := by ring
    have e' : 2 * (k * count) = k * (2 * count) := by ring
    simp only [hc, hk0, Nat.mul_eq_zero, or_self, if_false, e, e']
    rw [Nat.mul_div_mul_left _ _ hk]

/-! ## Stylization -/

/-- C1: the stylization does not clamp.  On the pixel `(0, 255, 255)` the
boosted red `-85` is stored as `171` and quantized to `160` (the claim asks
for `0`), and the boosted green and blue are bounded to `255`, whose
quantization `256` is stored as `0` (the claim asks for `255`); a white pixel
`(255, 255, 255)` becomes black. -/
theorem stylize_wraps_instead_of_clamping :
    stylize ⟨2, 1, [0, 255, 255, 255, 255, 255, 255, 255]⟩
        = ⟨2, 1, [160, 0, 0, 255, 0, 0, 0, 255]⟩ ∧
      specStylizeChannel 0 0 255 255 = 0 ∧
      specStylizeChannel 255 0 255 255 = 255 ∧
      specStylizeChannel 255 255 255 255 = 255 := by
  decide

/-! ## Claims on the colour average -/

/-- C3, as stated, fails: on the empty sequence the function does not fail, it
returns a value (all three channels `NaN`, count 0). -/
theorem analyze_empty_returns :
    ¬ ∀ images : List Bitmap, (images = [] ∨ pixelTotal images = 0) →
        ∃ e, analyzeTemplateColorsFromMemory images = .error e := by
  intro h
  obtain ⟨e, he⟩ := h [] (Or.inl rfl)
  simp [analyzeTemplateColorsFromMemory] at he

/-- C3, amended: whenever the sequence is empty or the images together hold no
pixel, `analyzeTemplateColorsFromMemory` returns the value whose three
channels are `NaN` and whose count is 0. -/
theorem analyze_no_pixels (images : List Bitmap)
    (h : images = [] ∨ pixelTotal images = 0) :
    analyzeTemplateColorsFromMemory images =
      .ok { dominantColor := { r := .nan, g := .nan, b := .nan }, colorCount := 0 } := by
  have hp : pixelTotal images = 0 := by
    rcases h with h | h
    · subst h; rfl
    · exact h
  rw [analyze_eq, hp, channelTotal_eq_zero hp, channelTotal_eq_zero hp,
    channelTotal_eq_zero hp]
  rfl

theorem analyze_no_pixels_witness :
    (([] : List Bitmap) = [] ∨ pixelTotal [] = 0) ∧
      analyzeTemplateColorsFromMemory [] =
        .ok { dominantColor := { r := .nan, g := .nan, b := .nan }, colorCount := 0 } :=
  ⟨Or.inl rfl, analyze_no_pixels [] (Or.inl rfl)⟩

/-- C4: the result of `analyzeTemplateColorsFromMemory` (dominant colour and
count) is the same for a sequence of images and for every permutation of it. -/
theorem analyze_perm (l₁ l₂ : List Bitmap) (h : l₁.Perm l₂) :
    analyzeTemplateColorsFromMemory l₁ = analyzeTemplateColorsFromMemory l₂ := by
  rw [analyze_eq, analyze_eq, pixelTotal_perm h, channelTotal_perm h 0,
    channelTotal_perm h 1, channelTotal_perm h 2]

theorem analyze_perm_witness :
    [(⟨1, 1, [10, 20, 30, 255]⟩ : Bitmap), ⟨2, 1, [1, 2, 3, 255, 250, 0, 7, 255]⟩].Perm
        [⟨2, 1, [1, 2, 3, 255, 250, 0, 7, 255]⟩, ⟨1, 1, [10, 20, 30, 255]⟩] ∧
      analyzeTemplateColorsFromMemory
          [⟨1, 1, [10, 20, 30, 255]⟩, ⟨2, 1, [1, 2, 3, 255, 250, 0, 7, 255]⟩] =
        analyzeTemplateColorsFromMemory
          [⟨2, 1, [1, 2, 3, 255, 250, 0, 7, 255]⟩, ⟨1, 1, [10, 20, 30, 255]⟩] :=
  ⟨List.Perm.swap _ _ _, analyze_perm _ _ (List.Perm.swap _ _ _)⟩

/-- C5, as stated, fails: `[A, B]` and `[A, A, B]` hold the same images with
different multiplicities, and for a black pixel `A` and a white pixel `B` the
results are `(128, 128, 128)`, count 2, and `(85, 85, 85)`, count 3. -/
theorem analyze_changes_under_repetition :
    ¬ ∀ l₁ l₂ : List Bitmap, l₁ ≠ [] → (∀ img, img ∈ l₁ ↔ img ∈ l₂) →
        analyzeTemplateColorsFromMemory l₁ = analyzeTemplateColorsFromMemory l₂ := by
  intro h
  have h' := h [⟨1, 1, [0, 0, 0, 255]⟩, ⟨1, 1, [255, 255, 255, 255]⟩]
    [⟨1, 1, [0, 0, 0, 255]⟩, ⟨1, 1, [0, 0, 0, 255]⟩, ⟨1, 1, [255, 255, 255, 255]⟩]
    (by simp) (by intro img; simp)
  have e₁ : analyzeTemplateColorsFromMemory
      [⟨1, 1, [0, 0, 0, 255]⟩, ⟨1, 1, [255, 255, 255, 255]⟩] =
      .ok { dominantColor := { r := .num 128, g := .num 128, b := .num 128 },
            colorCount := 2 } := by rfl
  have e₂ : analyzeTemplateColorsFromMemory
      [⟨1, 1, [0, 0, 0, 255]⟩, ⟨1, 1, [0, 0, 0, 255]⟩, ⟨1, 1, [255, 255, 255, 255]⟩] =
      .ok { dominantColor := { r := .num 85, g := .num 85, b := .num 85 },
            colorCount := 3 } := by rfl
  rw [e₁, e₂] at h'
  simp at h'

/-- C5, amended: when every image is repeated the same number `k ≥ 1` of times
(the second sequence is a rearrangement of `k` copies of the first), the
dominant colour is the same and the count is multiplied by `k`. -/
theorem analyze_uniform_repetition (l₁ l₂ : List Bitmap) (k : Nat) (hk : 0 < k)
    (h : l₂.Perm (List.replicate k l₁).flatten) :
    analyzeTemplateColorsFromMemory l₂ =
      (analyzeTemplateColorsFromMemory l₁).map
        fun s => { s with colorCount := k * s.colorCount } := by
  rw [analyze_eq, analyze_eq, pixelTotal_perm h, channelTotal_perm h 0,
    channelTotal_perm h 1, channelTotal_perm h 2, pixelTotal_replicate,
    channelTotal_replicate, channelTotal_replicate, channelTotal_replicate,
    roundDiv_mul hk, roundDiv_mul hk, roundDiv_mul hk]
  rfl

theorem analyze_uniform_repetition_witness :
    0 < 2 ∧
      [(⟨1, 1, [255, 255, 255, 255]⟩ : Bitmap), ⟨1, 1, [0, 0, 0, 255]⟩,
          ⟨1, 1, [0, 0, 0, 255]⟩, ⟨1, 1, [255, 255, 255, 255]⟩].Perm
        (List.replicate 2
          [(⟨1, 1, [0, 0, 0, 255]⟩ : Bitmap), ⟨1, 1, [255, 255, 255, 255]⟩]).flatten ∧
      analyzeTemplateColorsFromMemory
          [⟨1, 1, [255, 255, 255, 255]⟩, ⟨1, 1, [0, 0, 0, 255]⟩,
            ⟨1, 1, [0, 0, 0, 255]⟩, ⟨1, 1, [255, 255, 255, 255]⟩] =
        (analyzeTemplateColorsFromMemory
            [⟨1, 1, [0, 0, 0, 255]⟩, ⟨1, 1, [255, 255, 255, 255]⟩]).map
          fun s => { s with colorCount := 2 * s.colorCount } :=
  ⟨by decide, by decide, analyze_uniform_repetition _ _ 2 (by decide) (by decide)⟩

/-- C6: for images (well-formed buffers) holding at least one pixel in total,
each channel of the dominant colour is a natural number at most 255, equal to
the sum of that channel over every pixel of every image divided by the total
pixel count and rounded to the nearest integer; the count is the total pixel
count. -/
theorem analyze_rounded_mean (images : List Bitmap) (hwf : ∀ img ∈ images, img.WF)
    (hpos : 0 < pixelTotal images) :
    ∃ r g b : Nat,
      analyzeTemplateColorsFromMemory images =
        .ok { dominantColor := { r := .num r, g := .num g, b := .num b },
              colorCount := pixelTotal images } ∧
      (r ≤ 255 ∧ IsRoundedMean (channelTotal 0 images) (pixelTotal images) r) ∧
      (g ≤ 255 ∧ IsRoundedMean (channelTotal 1 images) (pixelTotal images) g) ∧
      (b ≤ 255 ∧ IsRoundedMean (channelTotal 2 images) (pixelTotal images) b) := by
  obtain ⟨r, hr, hr'⟩ := roundDiv_spec hpos (channelTotal_le hwf 0)
  obtain ⟨g, hg, hg'⟩ := roundDiv_spec hpos (channelTotal_le hwf 1)
  obtain ⟨b, hb, hb'⟩ := roundDiv_spec hpos (channelTotal_le hwf 2)
  exact ⟨r, g, b, by rw [analyze_eq, hr, hg, hb], hr', hg', hb'⟩

theorem analyze_rounded_mean_witness :
    (∀ img ∈ [(⟨1, 1, [0, 10, 255, 255]⟩ : Bitmap), ⟨1, 1, [255, 11, 255, 255]⟩], img.WF) ∧
      0 < pixelTotal [⟨1, 1, [0, 10, 255, 255]⟩, ⟨1, 1, [255, 11, 255, 255]⟩] ∧
      ∃ r g b : Nat,
        analyzeTemplateColorsFromMemory
            [⟨1, 1, [0, 10, 255, 255]⟩, ⟨1, 1, [255, 11, 255, 255]⟩] =
          .ok { dominantColor := { r := .num r, g := .num g, b := .num b },
                colorCount := pixelTotal
                  [⟨1, 1, [0, 10, 255, 255]⟩, ⟨1, 1, [255, 11, 255, 255]⟩] } ∧
        (r ≤ 255 ∧ IsRoundedMean
          (channelTotal 0 [⟨1, 1, [0, 10, 255, 255]⟩, ⟨1, 1, [255, 11, 255, 255]⟩])
          (pixelTotal [⟨1, 1, [0, 10, 255, 255]⟩, ⟨1, 1, [255, 11, 255, 255]⟩]) r) ∧
        (g ≤ 255 ∧ IsRoundedMean
          (channelTotal 1 [⟨1, 1, [0, 10, 255, 255]⟩, ⟨1, 1, [255, 11, 255, 255]⟩])
          (pixelTotal [⟨1, 1, [0, 10, 255, 255]⟩, ⟨1, 1, [255, 11, 255, 255]⟩]) g) ∧
        (b ≤ 255 ∧ IsRoundedMean
          (channelTotal 2 [⟨1, 1, [0, 10, 255, 255]⟩, ⟨1, 1, [255, 11, 255, 255]⟩])
          (pixelTotal [⟨1, 1, [0, 10, 255, 255]⟩, ⟨1, 1, [255, 11, 255, 255]⟩]) b) :=
  ⟨by decide, by decide, analyze_rounded_mean _ (by decide) (by decide)⟩

/-! ## Buffers and scans -/

theorem mem_scanCoords {w h : Nat} {p : Nat × Nat} :
    p ∈ scanCoords w h ↔ p.1 < w ∧ p.2 < h := by
  obtain ⟨x, y⟩ := p
  simp only [scanCoords, List.mem_flatMap, List.mem_range, List.mem_map, Prod.mk.injEq]
  constructor
  · rintro ⟨y', hy, x', hx, rfl, rfl⟩
    exact ⟨hx, hy⟩
  · rintro ⟨hx, hy⟩
    exact ⟨y, hy, x, hx, rfl, rfl⟩

theorem nodup_scanCoords (w h : Nat) : (scanCoords w h).Nodup := by
  unfold scanCoords
  rw [List.nodup_flatMap]
  refine ⟨fun y _ => ?_, ?_⟩
  · exact (List.nodup_range w).map fun a b hab => (Prod.mk.inj hab).1
  · refine (List.nodup_range h).pairwise_of_forall_ne ?_
    intro y₁ _ y₂ _ hne p hp₁ hp₂
    obtain ⟨_, _, rfl⟩ := List.mem_map.1 hp₁
    obtain ⟨_, _, e⟩ := List.mem_map.1 hp₂
    exact hne (Prod.mk.inj e).2.symm

theorem pixel_index_inj {w x y x' y' : Nat} (hx : x < w) (hx' : x' < w)
    (h : w * y + x = w * y' + x') : x = x' ∧ y = y' := by
  have h1 : (w * y + x) % w = (w * y' + x') % w := by rw [h]
  have h2 : (w * y + x) / w = (w * y' + x') / w := by rw [h]
  rw [Nat.mul_add_mod, Nat.mul_add_mod, Nat.mod_eq_of_lt hx, Nat.mod_eq_of_lt hx'] at h1
  rw [Nat.mul_add_div (by omega), Nat.mul_add_div (by omega), Nat.div_eq_of_lt hx,
    Nat.div_eq_of_lt hx'] at h2
  exact ⟨h1, by omega⟩

theorem pixel_index_lt {w h x y : Nat} (hx : x < w) (hy : y < h) :
    w * y + x < w * h := by
  have : w * (y + 1) ≤ w * h := Nat.mul_le_mul_left w hy
  rw [Nat.mul_succ] at this
  omega

theorem readByte_writeByte (d : List Nat) (i v j : Nat) :
    readByte (writeByte d i v) j = if i = j ∧ i < d.length then v else readByte d j := by
  unfold readByte writeByte
  rw [List.getD_eq_getElem?_getD, List.getD_eq_getElem?_getD, List.getElem?_set]
  by_cases hij : i = j
  · subst hij
    by_cases hl : i < d.length
    · simp [hl]
    · simp [hl, List.getElem?_eq_none (Nat.le_of_not_lt hl)]
  · simp [hij]

theorem length_writeByte (d : List Nat) (i v : Nat) : (writeByte d i v).length = d.length := by
  simp [writeByte]

theorem length_writeUInt32BE (d : List Nat) (v i : Nat) :
    (writeUInt32BE d v i).length = d.length := by
  simp [writeUInt32BE, length_writeByte]

theorem readByte_writeUInt32BE_of_ne (d : List Nat) (v i j : Nat) (h : j < i ∨ i + 4 ≤ j) :
    readByte (writeUInt32BE d v i) j = readByte d j := by
  simp only [writeUInt32BE, readByte_writeByte, length_writeByte]
  have h0 : ¬ i = j := by omega
  have h1 : ¬ i + 1 = j := by omega
  have h2 : ¬ i + 2 = j := by omega
  have h3 : ¬ i + 3 = j := by omega
  simp [h0, h1, h2, h3]

theorem pixAt_writeUInt32BE (d : List Nat) (v i : Nat) (h : i + 4 ≤ d.length) :
    pixAt (writeUInt32BE d v i) i =
      { r := uint32Byte v 0, g := uint32Byte v 1, b := uint32Byte v 2, a := uint32Byte v 3 } := by
  have h0 : i < d.length := by omega
  have h1 : i + 1 < d.length := by omega
  have h2 : i + 2 < d.length := by omega
  have h3 : i + 3 < d.length := by omega
  simp [pixAt, writeUInt32BE, readByte_writeByte, length_writeByte, h0, h1, h2, h3]

theorem pixAt_congr {d d' : List Nat} {i : Nat}
    (h : ∀ k, k < 4 → readByte d' (i + k) = readByte d (i + k)) : pixAt d' i = pixAt d i := by
  have h0 := h 0 (by omega)
  have h1 := h 1 (by omega)
  have h2 := h 2 (by omega)
  have h3 := h 3 (by omega)
  simp only [Nat.add_zero] at h0
  simp [pixAt, h0, h1, h2, h3]


theorem pixIdx_disjoint {w : Nat} {p q : Nat × Nat} (hp : p.1 < w) (hq : q.1 < w)
    (hne : q ≠ p) (k : Nat) (hk : k < 4) :
    pixIdx w q + k < pixIdx w p ∨ pixIdx w p + 4 ≤ pixIdx w q + k := by
  have hidx : w * q.2 + q.1 ≠ w * p.2 + p.1 := by
    intro e
    obtain ⟨e1, e2⟩ := pixel_index_inj hq hp e
    exact hne (Prod.ext e1 e2)
  unfold pixIdx
  omega

/-- A fold whose step at `p` rewrites only the four bytes of pixel `p`, as a
function `g p` of their previous content, leaves in each pixel `q` the value
`g q` of its initial content if `q` was visited, and its initial content
otherwise. -/
theorem foldl_pixel_local {σ : Type} (w : Nat) (dat : σ → List Nat) (Inv : σ → Prop)
    (step : σ → Nat × Nat → σ) (g : Nat × Nat → RGBA → RGBA)
    (L : List (Nat × Nat)) (hnd : L.Nodup) (hL : ∀ p ∈ L, p.1 < w)
    (hinv : ∀ s p, p ∈ L → Inv s → Inv (step s p))
    (hframe : ∀ s p j, p ∈ L → Inv s → (j < pixIdx w p ∨ pixIdx w p + 4 ≤ j) →
      readByte (dat (step s p)) j = readByte (dat s) j)
    (hloc : ∀ s p, p ∈ L → Inv s →
      pixAt (dat (step s p)) (pixIdx w p) = g p (pixAt (dat s) (pixIdx w p)))
    (s₀ : σ) (h₀ : Inv s₀) :
    Inv (L.foldl step s₀) ∧
      ∀ q : Nat × Nat, q.1 < w →
        pixAt (dat (L.foldl step s₀)) (pixIdx w q) =
          if q ∈ L then g q (pixAt (dat s₀) (pixIdx w q)) else pixAt (dat s₀) (pixIdx w q) := by
  induction L generalizing s₀ with
  | nil => exact ⟨h₀, fun q _ => by simp⟩
  | cons p L ih =>
    have hpL : p ∉ L := (List.nodup_cons.1 hnd).1
    have hp : p ∈ p :: L := List.mem_cons_self _ _
    obtain ⟨hI, hpix⟩ := ih (List.nodup_cons.1 hnd).2
      (fun q hq => hL q (List.mem_cons_of_mem _ hq))
      (fun s q hq => hinv s q (List.mem_cons_of_mem _ hq))
      (fun s q j hq => hframe s q j (List.mem_cons_of_mem _ hq))
      (fun s q hq => hloc s q (List.mem_cons_of_mem _ hq))
      (step s₀ p) (hinv s₀ p hp h₀)
    refine ⟨hI, fun q hq => ?_⟩
    rw [List.foldl_cons, hpix q hq]
    by_cases hqp : q = p
    · subst hqp
      simp [hpL, hloc s₀ q hp h₀]
    · have hfr : pixAt (dat (step s₀ p)) (pixIdx w q) = pixAt (dat s₀) (pixIdx w q) :=
        pixAt_congr fun k hk =>
          hframe s₀ p _ hp h₀ (pixIdx_disjoint (hL p hp) hq hqp k hk)
      simp [hqp, hfr]

theorem create_hasSize (w h color : Nat) : (Bitmap.create w h color).HasSize w h := by
  simp [Bitmap.create, Bitmap.HasSize]

theorem readByte_create (w h color j : Nat) (hj : j < w * h * 4) :
    readByte (Bitmap.create w h color).data j = uint32Byte color (j % 4) := by
  unfold readByte Bitmap.create
  rw [List.getD_eq_getElem?_getD, List.getElem?_map, List.getElem?_range hj]
  rfl

theorem pixAt_create (w h color : Nat) (p : Nat × Nat) (hx : p.1 < w) (hy : p.2 < h) :
    pixAt (Bitmap.create w h color).data (pixIdx w p) =
      { r := uint32Byte color 0, g := uint32Byte color 1, b := uint32Byte color 2,
        a := uint32Byte color 3 } := by
  have hlt := pixel_index_lt hx hy
  unfold pixAt pixIdx
  rw [readByte_create _ _ _ _ (by omega), readByte_create _ _ _ _ (by omega),
    readByte_create _ _ _ _ (by omega), readByte_create _ _ _ _ (by omega)]
  have e0 : (w * p.2 + p.1) * 4 % 4 = 0 := by omega
  have e1 : ((w * p.2 + p.1) * 4 + 1) % 4 = 1 := by omega
  have e2 : ((w * p.2 + p.1) * 4 + 2) % 4 = 2 := by omega
  have e3 : ((w * p.2 + p.1) * 4 + 3) % 4 = 3 := by omega
  rw [e0, e1, e2, e3]

theorem intToRGBA_pack {r g b a : Nat} (hg : g < 256) (hb : b < 256) (ha : a < 256) :
    intToRGBA (((r * 256 + g) * 256 + b) * 256 + a) = { r := r, g := g, b := b, a := a } := by
  have e1 : (((r * 256 + g) * 256 + b) * 256 + a) / 256 ^ 3 = r := by omega
  have e2 : ((((r * 256 + g) * 256 + b) * 256 + a) - r * 256 ^ 3) / 256 ^ 2 = g := by omega
  have e3 : ((((r * 256 + g) * 256 + b) * 256 + a) - r * 256 ^ 3 - g * 256 ^ 2) / 256 = b := by
    omega
  have e4 : (((r * 256 + g) * 256 + b) * 256 + a) - r * 256 ^ 3 - g * 256 ^ 2 - b * 256 = a := by
    omega
  simp only [intToRGBA, e1, e2, e3, e4]

theorem intToRGBA_readUInt32BE {img : Bitmap} (h : img.WF) (i : Nat) :
    intToRGBA (readUInt32BE img.data i) = pixAt img.data i :=
  intToRGBA_pack (readByte_lt_of_WF h _) (readByte_lt_of_WF h _) (readByte_lt_of_WF h _)


/-! ## Edge scans -/

theorem getPixelIndex_eq {c : Bitmap} {x y : Nat} (hx : x < c.width) (hy : y < c.height) :
    c.getPixelIndex x y = pixIdx c.width (x, y) := by
  simp [Bitmap.getPixelIndex, pixIdx, Nat.not_le.2 hx, Nat.not_le.2 hy]

theorem getPixelColor_eq {img : Bitmap} (h : img.WF) {x y : Nat} (hx : x < img.width)
    (hy : y < img.height) : intToRGBA (img.getPixelColor x y) = img.pixel x y := by
  unfold Bitmap.getPixelColor Bitmap.pixel
  rw [intToRGBA_readUInt32BE h, getPixelIndex_eq hx hy]
  rfl

theorem outlineStep_eq (image c : Bitmap) (x y idx : Nat) :
    outlineStep image c x y idx =
      if edgeTest image x y then c.setPixelColor 255 x y else c := by
  unfold outlineStep edgeTest colorDiff
  by_cases hb : x = 0 ∨ y = 0 ∨ x = image.width - 1 ∨ y = image.height - 1
  · simp [hb]
  · simp only [hb, if_false, not_false_eq_true, true_and]

theorem coloredEdgeStep_eq (coloredImage c : Bitmap) (x y idx : Nat) :
    coloredEdgeStep coloredImage c x y idx =
      if edgeTest coloredImage x y then c.setPixelColor 255 x y else c := by
  unfold coloredEdgeStep edgeTest colorDiff
  by_cases hb : x = 0 ∨ y = 0 ∨ x = coloredImage.width - 1 ∨ y = coloredImage.height - 1
  · simp [hb]
  · simp only [hb, if_false, not_false_eq_true, true_and]

/-- A scan of `img` whose callback paints `(x, y)` black on the canvas when
`edgeTest img x y` holds, and does nothing otherwise, leaves a canvas of the
same size on which exactly the tested pixels are black and the others are as
before. -/
theorem paint_scan (img c₀ : Bitmap) (step : Bitmap → Nat → Nat → Nat → Bitmap)
    (hstep : ∀ c x y idx,
      step c x y idx = if edgeTest img x y then c.setPixelColor 255 x y else c)
    (h₀ : c₀.HasSize img.width img.height) :
    (img.scan step c₀).HasSize img.width img.height ∧
      ∀ x, x < img.width → ∀ y, y < img.height →
        (img.scan step c₀).pixel x y = if edgeTest img x y then black else c₀.pixel x y := by
  have key := foldl_pixel_local img.width (fun c : Bitmap => c.data)
    (fun c => c.HasSize img.width img.height)
    (fun acc p => step acc p.1 p.2 ((img.width * p.2 + p.1) * 4))
    (fun p old => if edgeTest img p.1 p.2 then black else old)
    (scanCoords img.width img.height) (nodup_scanCoords _ _)
    (fun p hp => (mem_scanCoords.1 hp).1)
    (by
      intro c p _ hc
      simp only [hstep]
      split
      · exact ⟨hc.1, hc.2.1, by
          simp [Bitmap.setPixelColor, length_writeUInt32BE, hc.2.2]⟩
      · exact hc)
    (by
      intro c p j hp hc hj
      obtain ⟨hx, hy⟩ := mem_scanCoords.1 hp
      simp only [hstep]
      split
      · simp only [Bitmap.setPixelColor]
        rw [getPixelIndex_eq (by rw [hc.1]; exact hx) (by rw [hc.2.1]; exact hy), hc.1]
        exact readByte_writeUInt32BE_of_ne _ _ _ _ hj
      · rfl)
    (by
      intro c p hp hc
      obtain ⟨hx, hy⟩ := mem_scanCoords.1 hp
      simp only [hstep]
      split
      · simp only [Bitmap.setPixelColor]
        rw [getPixelIndex_eq (by rw [hc.1]; exact hx) (by rw [hc.2.1]; exact hy), hc.1,
          pixAt_writeUInt32BE]
        · rfl
        · have := pixel_index_lt hx hy
          rw [hc.2.2]
          simp only [pixIdx]
          omega
      · rfl)
    c₀ h₀
  refine ⟨key.1, fun x hx y hy => ?_⟩
  have hk := key.2 (x, y) hx
  have hm : (x, y) ∈ scanCoords img.width img.height := mem_scanCoords.2 ⟨hx, hy⟩
  simp only [hm, if_true] at hk
  have hw : (img.scan step c₀).width = img.width := key.1.1
  unfold Bitmap.pixel
  rw [hw, h₀.1]
  exact hk

theorem pixel_create {w h color x y : Nat} (hx : x < w) (hy : y < h) :
    (Bitmap.create w h color).pixel x y =
      { r := uint32Byte color 0, g := uint32Byte color 1, b := uint32Byte color 2,
        a := uint32Byte color 3 } :=
  pixAt_create w h color (x, y) hx hy

theorem outline_pixel_test (image : Bitmap) :
    (generateOutlineDrawingFromMemory image).HasSize image.width image.height ∧
      ∀ x, x < image.width → ∀ y, y < image.height →
        (generateOutlineDrawingFromMemory image).pixel x y =
          if edgeTest image x y then black else white := by
  have h := paint_scan image (Bitmap.create image.width image.height 0xffffffff)
    (outlineStep image) (outlineStep_eq image) (create_hasSize _ _ _)
  refine ⟨h.1, fun x hx y hy => ?_⟩
  have hp := h.2 x hx y hy
  rw [pixel_create hx hy] at hp
  exact hp

theorem overlay_pixel_test (image : Bitmap) :
    (coloredEdgeOverlay image).HasSize (stylize image).width (stylize image).height ∧
      ∀ x, x < (stylize image).width → ∀ y, y < (stylize image).height →
        (coloredEdgeOverlay image).pixel x y =
          if edgeTest (stylize image) x y then black else transparent := by
  have h := paint_scan (stylize image)
    (Bitmap.create (stylize image).width (stylize image).height 0x00000000)
    (coloredEdgeStep (stylize image)) (coloredEdgeStep_eq (stylize image))
    (create_hasSize _ _ _)
  refine ⟨h.1, fun x hx y hy => ?_⟩
  have hp := h.2 x hx y hy
  rw [pixel_create hx hy] at hp
  exact hp

theorem edgeTest_iff_isEdge {img : Bitmap} (h : img.WF) {x y : Nat} (hx : x < img.width)
    (hy : y < img.height) : edgeTest img x y ↔ IsEdge img x y := by
  unfold edgeTest IsEdge
  by_cases hi : 0 < x ∧ x < img.width - 1 ∧ 0 < y ∧ y < img.height - 1
  · obtain ⟨h1, h2, h3, h4⟩ := hi
    rw [getPixelColor_eq h (by omega) hy, getPixelColor_eq h (by omega) hy,
      getPixelColor_eq h hx (by omega), getPixelColor_eq h hx (by omega)]
    constructor
    · rintro ⟨-, hd⟩
      exact ⟨h1, h2, h3, h4, hd⟩
    · rintro ⟨-, -, -, -, hd⟩
      exact ⟨by omega, hd⟩
  · constructor
    · rintro ⟨hb, -⟩
      exact absurd (by omega) hi
    · rintro ⟨h1, h2, h3, h4, -⟩
      exact absurd ⟨h1, h2, h3, h4⟩ hi


/-! ## Claims on the edge detection -/

theorem outline_pixel_isEdge (image : Bitmap) (hwf : image.WF) :
    (generateOutlineDrawingFromMemory image).HasSize image.width image.height ∧
      ∀ x, x < image.width → ∀ y, y < image.height →
        (generateOutlineDrawingFromMemory image).pixel x y =
          if IsEdge image x y then black else white := by
  obtain ⟨hs, hp⟩ := outline_pixel_test image
  refine ⟨hs, fun x hx y hy => ?_⟩
  rw [hp x hx y hy]
  by_cases he : edgeTest image x y
  · rw [if_pos he, if_pos ((edgeTest_iff_isEdge hwf hx hy).1 he)]
  · rw [if_neg he, if_neg fun h => he ((edgeTest_iff_isEdge hwf hx hy).2 h)]

/-- C2: for every image (a well-formed buffer of any width and height,
including widths and heights below 3) the canvas of
`generateOutlineDrawingFromMemory` has the dimensions of the image, and its
pixel `(x, y)` is opaque black exactly when `(x, y)` is an interior pixel with
`diffX > 100` or `diffY > 100`; every other pixel is opaque white. -/
theorem outline_pixel (image : Bitmap) (hwf : image.WF) :
    (generateOutlineDrawingFromMemory image).width = image.width ∧
      (generateOutlineDrawingFromMemory image).height = image.height ∧
      (generateOutlineDrawingFromMemory image).data.length
        = image.width * image.height * 4 ∧
      ∀ x, x < image.width → ∀ y, y < image.height →
        (generateOutlineDrawingFromMemory image).pixel x y =
          if IsEdge image x y then black else white := by
  obtain ⟨hs, hp⟩ := outline_pixel_isEdge image hwf
  exact ⟨hs.1, hs.2.1, hs.2.2, hp⟩

theorem outline_pixel_witness :
    twoHalves.WF ∧
      (generateOutlineDrawingFromMemory twoHalves).width = twoHalves.width ∧
      (generateOutlineDrawingFromMemory twoHalves).height = twoHalves.height ∧
      (generateOutlineDrawingFromMemory twoHalves).data.length
        = twoHalves.width * twoHalves.height * 4 ∧
      ∀ x, x < twoHalves.width → ∀ y, y < twoHalves.height →
        (generateOutlineDrawingFromMemory twoHalves).pixel x y =
          if IsEdge twoHalves x y then black else white :=
  ⟨by decide, outline_pixel twoHalves (by decide)⟩

/-- C7: in an image whose columns `x < k` all have colour `A` and whose columns
`x ≥ k` all have colour `B`, with the channel-wise distance of `A` and `B`
above 100, every pixel painted black by the edge detection lies in column
`k - 1` or in column `k`. -/
theorem two_halves_edges (image : Bitmap) (hwf : image.WF) (k : Nat) (A B : Nat × Nat × Nat)
    (hcol : ∀ x, x < image.width → ∀ y, y < image.height →
      (image.pixel x y).rgb = if x < k then A else B)
    (_hAB : absDiff A.1 B.1 + absDiff A.2.1 B.2.1 + absDiff A.2.2 B.2.2 > 100) :
    ∀ x, x < image.width → ∀ y, y < image.height →
      (generateOutlineDrawingFromMemory image).pixel x y = black → x + 1 = k ∨ x = k := by
  intro x hx y hy hblack
  rw [(outline_pixel_isEdge image hwf).2 x hx y hy] at hblack
  by_cases he : IsEdge image x y
  · obtain ⟨h1, h2, h3, h4, hd⟩ := he
    have hrgb : ∀ p q : RGBA, p.rgb = q.rgb → colorDiff p q = 0 := by
      intro p q hpq
      simp only [RGBA.rgb, Prod.mk.injEq] at hpq
      simp [colorDiff, absDiff, hpq.1, hpq.2.1, hpq.2.2]
    rcases hd with hd | hd
    · by_contra hk
      have hl := hcol (x - 1) (by omega) y hy
      have hr := hcol (x + 1) (by omega) y hy
      have hsame : (image.pixel (x - 1) y).rgb = (image.pixel (x + 1) y).rgb := by
        rw [hl, hr]
        by_cases hlt : x + 1 < k
        · rw [if_pos hlt, if_pos (by omega)]
        · rw [if_neg hlt, if_neg (by omega)]
      rw [hrgb _ _ hsame] at hd
      omega
    · have ht := hcol x hx (y - 1) (by omega)
      have hb := hcol x hx (y + 1) (by omega)
      rw [hrgb _ _ (ht.trans hb.symm)] at hd
      omega
  · rw [if_neg he] at hblack
    exact absurd hblack (by decide)

theorem two_halves_edges_witness :
    twoHalves.WF ∧
      (∀ x, x < twoHalves.width → ∀ y, y < twoHalves.height →
        (twoHalves.pixel x y).rgb = if x < 2 then (0, 0, 0) else (255, 255, 255)) ∧
      absDiff 0 255 + absDiff 0 255 + absDiff 0 255 > 100 ∧
      ∀ x, x < twoHalves.width → ∀ y, y < twoHalves.height →
        (generateOutlineDrawingFromMemory twoHalves).pixel x y = black → x + 1 = 2 ∨ x = 2 :=
  ⟨by decide, by decide, by decide,
    two_halves_edges twoHalves (by decide) 2 (0, 0, 0) (255, 255, 255) (by decide) (by decide)⟩

/-- C10: the edge overlay of `generateColoredIllustrationFromMemory` is the
outline detection applied to the stylized buffer: it has the dimensions of the
photo, and its pixel `(x, y)` is opaque black where
`generateOutlineDrawingFromMemory`, run on the stylized buffer, paints black,
and fully transparent everywhere else. -/
theorem overlay_matches_outline_of_stylized (image : Bitmap) :
    (coloredEdgeOverlay image).width = image.width ∧
      (coloredEdgeOverlay image).height = image.height ∧
      ∀ x, x < image.width → ∀ y, y < image.height →
        (coloredEdgeOverlay image).pixel x y =
          if (generateOutlineDrawingFromMemory (stylize image)).pixel x y = black
          then black else transparent := by
  obtain ⟨hs, hp⟩ := overlay_pixel_test image
  obtain ⟨-, hq⟩ := outline_pixel_test (stylize image)
  refine ⟨hs.1, hs.2.1, fun x hx y hy => ?_⟩
  rw [hp x hx y hy, hq x hx y hy]
  by_cases he : edgeTest (stylize image) x y
  · simp [he]
  · have hwb : white ≠ black := by decide
    simp [he, hwb]


/-- The overlay follows the stylized buffer, not the photo: on a 3 × 3 photo
with a black left column and a right column of colour `(40, 40, 40)` the
outline of the photo marks the centre pixel (difference 120), but the overlay
does not, because the stylization quantizes 40 to 32 (difference 96). -/
theorem overlay_differs_from_outline_of_photo :
    (generateOutlineDrawingFromMemory
        ⟨3, 3, [0, 0, 0, 255, 0, 0, 0, 255, 40, 40, 40, 255,
                0, 0, 0, 255, 0, 0, 0, 255, 40, 40, 40, 255,
                0, 0, 0, 255, 0, 0, 0, 255, 40, 40, 40, 255]⟩).pixel 1 1 = black ∧
      (coloredEdgeOverlay
        ⟨3, 3, [0, 0, 0, 255, 0, 0, 0, 255, 40, 40, 40, 255,
                0, 0, 0, 255, 0, 0, 0, 255, 40, 40, 40, 255,
                0, 0, 0, 255, 0, 0, 0, 255, 40, 40, 40, 255]⟩).pixel 1 1 = transparent := by
  decide

/-! ## Thumbnail -/

theorem mathRound_natCast (n : Nat) : mathRound (n : ℚ) = n := by
  unfold mathRound
  rw [Int.floor_eq_iff]
  constructor
  · push_cast; linarith
  · push_cast; linarith

theorem mathRound_half (n : Nat) : mathRound ((n : ℚ) / 2) = ((n + 1) / 2 : Nat) := by
  unfold mathRound
  rw [Int.floor_eq_iff]
  have h1 : (n + 1) / 2 * 2 ≤ n + 1 := Nat.div_mul_le_self _ _
  have h2 : n + 1 < (n + 1) / 2 * 2 + 2 := Nat.lt_div_mul_add (by omega)
  generalize (n + 1) / 2 = r at h1 h2
  have h1' : (r : ℚ) * 2 ≤ n + 1 := by exact_mod_cast h1
  have h2' : (n : ℚ) + 1 < r * 2 + 2 := by exact_mod_cast h2
  constructor
  · push_cast; linarith
  · push_cast; linarith

theorem createThumbnailCrop_eq (image : Bitmap) :
    createThumbnailCrop image =
      { x := ((image.width - min image.width image.height + 1) / 2 : Nat)
        y := ((image.height - min image.width image.height + 1) / 2 : Nat)
        w := (min image.width image.height : Nat)
        h := (min image.width image.height : Nat) } := by
  have hw : ((image.width : ℚ) - ((min image.width image.height : Nat) : ℚ)) =
      ((image.width - min image.width image.height : Nat) : ℚ) := by
    rw [Nat.cast_sub (Nat.min_le_left _ _)]
  have hh : ((image.height : ℚ) - ((min image.width image.height : Nat) : ℚ)) =
      ((image.height - min image.width image.height : Nat) : ℚ) := by
    rw [Nat.cast_sub (Nat.min_le_right _ _)]
  have hm : (min (image.width : ℚ) (image.height : ℚ)) =
      ((min image.width image.height : Nat) : ℚ) := by
    rw [Nat.cast_min]
  simp only [createThumbnailCrop, cropRect, thumbnailCropArgs, hm, hw, hh, mathRound_half,
    mathRound_natCast]

/-- C8, as stated, fails: on a 5 × 2 image the crop origin is `(2, 0)`, not
the truncation `(1, 0)` of `(1.5, 0)`. -/
theorem thumbnail_origin_not_truncated :
    ¬ ∀ image : Bitmap, 1 ≤ image.width → 1 ≤ image.height →
        (createThumbnailCrop image).x
            = Int.tdiv ((image.width : Int) - min image.width image.height) 2 ∧
          (createThumbnailCrop image).y
            = Int.tdiv ((image.height : Int) - min image.width image.height) 2 := by
  intro h
  have h' := (h ⟨5, 2, List.replicate 40 255⟩ (by decide) (by decide)).1
  rw [createThumbnailCrop_eq] at h'
  revert h'
  decide

/-- C8, amended: `createThumbnailFromMemory` passes the exact origin
`((w - edge) / 2, (h - edge) / 2)` with `edge = min(w, h)` to `crop`, and the
square that is cropped has side `edge` and the origin rounded to the nearest
integer, a half upward: `⌊(w - edge + 1) / 2⌋`, `⌊(h - edge + 1) / 2⌋`.  The
square lies inside the image. -/
theorem thumbnail_origin_rounded (image : Bitmap) :
    thumbnailCropArgs image =
        (((image.width : ℚ) - (min image.width image.height : Nat)) / 2,
          ((image.height : ℚ) - (min image.width image.height : Nat)) / 2,
          ((min image.width image.height : Nat) : ℚ),
          ((min image.width image.height : Nat) : ℚ)) ∧
      (createThumbnailCrop image).w = (min image.width image.height : Nat) ∧
      (createThumbnailCrop image).h = (min image.width image.height : Nat) ∧
      (createThumbnailCrop image).x
        = ((image.width - min image.width image.height + 1) / 2 : Nat) ∧
      (createThumbnailCrop image).y
        = ((image.height - min image.width image.height + 1) / 2 : Nat) ∧
      0 ≤ (createThumbnailCrop image).x ∧
      (createThumbnailCrop image).x + (createThumbnailCrop image).w ≤ image.width ∧
      0 ≤ (createThumbnailCrop image).y ∧
      (createThumbnailCrop image).y + (createThumbnailCrop image).h ≤ image.height := by
  rw [createThumbnailCrop_eq]
  refine ⟨?_, rfl, rfl, rfl, rfl, ?_, ?_, ?_, ?_⟩
  · simp [thumbnailCropArgs, Nat.cast_min]
  · exact Int.natCast_nonneg _
  · have : (image.width - min image.width image.height + 1) / 2
        + min image.width image.height ≤ image.width := by omega
    show ((_ : Nat) : Int) + ((_ : Nat) : Int) ≤ _
    exact_mod_cast this
  · exact Int.natCast_nonneg _
  · have : (image.height - min image.width image.height + 1) / 2
        + min image.width image.height ≤ image.height := by omega
    show ((_ : Nat) : Int) + ((_ : Nat) : Int) ≤ _
    exact_mod_cast this


/-! ## Composite -/

theorem blendPixel_eq (src dst : RGBA) (ops : Dbl) :
    blendPixel src dst ops =
      { r := blendChan src.r src.a dst.r dst.a ops
        g := blendChan src.g src.a dst.g dst.a ops
        b := blendChan src.b src.a dst.b dst.a ops
        a := blendAlpha src.a dst.a ops } := rfl

theorem round_fin (m e : Int) : ∃ m' e', Dbl.round m e = Dbl.fin m' e' := by
  unfold Dbl.round
  by_cases h : m = 0
  · exact ⟨0, 0, by rw [if_pos h]; rfl⟩
  · exact ⟨_, _, by rw [if_neg h]⟩

theorem chan_fin (v : Nat) : ∃ m e, chan v = Dbl.fin m e := by
  have h : ∃ m e, chan v = Dbl.round m e := by
    unfold chan Dbl.ofNat Dbl.div
    simp only [Nat.cast_ofNat, OfNat.ofNat_ne_zero, if_false]
    exact ⟨_, _, rfl⟩
  obtain ⟨m, e, h⟩ := h
  obtain ⟨m', e', h'⟩ := round_fin m e
  exact ⟨m', e', h.trans h'⟩

theorem mul_fin_zero (m e : Int) : Dbl.mul (Dbl.fin m e) Dbl.zero = Dbl.zero := by
  simp [Dbl.mul, Dbl.zero, Dbl.round]

theorem srcAlpha_zero : Dbl.mul (chan 0) (Dbl.ofNat 1) = Dbl.zero := by decide

theorem chan_zero : chan 0 = Dbl.zero := by decide

theorem mul_chan_zero (v : Nat) : Dbl.mul (chan v) Dbl.zero = Dbl.zero := by
  obtain ⟨m, e, h⟩ := chan_fin v
  rw [h, mul_fin_zero]

/-- Under a source pixel of alpha 0 the colour of the source has no effect. -/
theorem blendChan_transparent (s d da : Nat) :
    blendChan s 0 d da (Dbl.ofNat 1) = blendChan 0 0 d da (Dbl.ofNat 1) := by
  unfold blendChan
  rw [srcAlpha_zero, mul_chan_zero s, mul_chan_zero 0]

set_option maxRecDepth 100000 in
set_option maxHeartbeats 0 in
theorem blendChan_opaque_base : ∀ d, d < 256 → blendChan 0 0 d 255 (Dbl.ofNat 1) = d := by
  decide

theorem blendAlpha_opaque_base : blendAlpha 0 255 (Dbl.ofNat 1) = 255 := by decide

theorem blendChan_clear_base (s d : Nat) : blendChan s 0 d 0 (Dbl.ofNat 1) = 0 := by
  unfold blendChan
  rw [srcAlpha_zero, mul_chan_zero s, chan_zero, mul_chan_zero d]
  decide

theorem blendAlpha_clear_base : blendAlpha 0 0 (Dbl.ofNat 1) = 0 := by decide

theorem blendPixel_transparent_opaque (src dst : RGBA) (hs : src.a = 0) (hr : dst.r < 256)
    (hg : dst.g < 256) (hb : dst.b < 256) (ha : dst.a = 255) :
    blendPixel src dst (Dbl.ofNat 1) = dst := by
  obtain ⟨sr, sg, sb, sa⟩ := src
  obtain ⟨dr, dg, db, da⟩ := dst
  simp only at hs hr hg hb ha
  subst hs ha
  rw [blendPixel_eq]
  simp only [blendChan_transparent, blendChan_opaque_base _ hr, blendChan_opaque_base _ hg,
    blendChan_opaque_base _ hb, blendAlpha_opaque_base]

theorem blendPixel_transparent_clear (src dst : RGBA) (hs : src.a = 0) (ha : dst.a = 0) :
    blendPixel src dst (Dbl.ofNat 1) = transparent := by
  obtain ⟨sr, sg, sb, sa⟩ := src
  obtain ⟨dr, dg, db, da⟩ := dst
  simp only at hs ha
  subst hs ha
  rw [blendPixel_eq]
  simp only [blendChan_clear_base, blendAlpha_clear_base, transparent]


/-! ## Error analysis of the blend -/

theorem bitLengthAux_zero (f : Nat) : bitLengthAux f 0 = 0 := by
  cases f <;> simp [bitLengthAux]

theorem bitLengthAux_lower (f n : Nat) (hn : 0 < n) : 2 ^ bitLengthAux f n ≤ 2 * n := by
  induction f generalizing n with
  | zero => simp [bitLengthAux]; omega
  | succ f ih =>
    have hn0 : n ≠ 0 := by omega
    simp only [bitLengthAux, hn0, if_false]
    rw [pow_succ]
    by_cases h2 : n / 2 = 0
    · rw [h2, bitLengthAux_zero]
      omega
    · have := ih (n / 2) (by omega)
      omega

theorem bitLengthAux_upper (f n : Nat) (hf : n ≤ f) : n < 2 ^ bitLengthAux f n := by
  induction f generalizing n with
  | zero =>
    have : n = 0 := by omega
    subst this
    simp [bitLengthAux]
  | succ f ih =>
    by_cases hn0 : n = 0
    · subst hn0
      simp [bitLengthAux]
    · simp only [bitLengthAux, hn0, if_false]
      rw [pow_succ]
      have := ih (n / 2) (by omega)
      omega

theorem bitLength_lower {n : Nat} (hn : 0 < n) : 2 ^ bitLength n ≤ 2 * n :=
  bitLengthAux_lower n n hn

theorem bitLength_upper (n : Nat) : n < 2 ^ bitLength n :=
  bitLengthAux_upper n n (Nat.le_refl n)

theorem roundNat_nat (n : Nat) (hn : 0 < n) (h53 : ¬ bitLength n ≤ 53) :
    let sh := bitLength n - 53
    let q := n / 2 ^ sh
    let r := n % 2 ^ sh
    let half := 2 ^ (sh - 1)
    let q' := if r > half ∨ (r = half ∧ q % 2 = 1) then q + 1 else q
    q' * 2 ^ sh ≤ n + half ∧ n ≤ q' * 2 ^ sh + half ∧ half * 2 ^ 53 ≤ n := by
  intro sh q r half q'
  have hsh : 1 ≤ sh := by omega
  have hhalf : 2 * half = 2 ^ sh := by
    show 2 * 2 ^ (sh - 1) = 2 ^ sh
    rw [← pow_succ']
    congr 1
    omega
  have hdm : 2 ^ sh * q + r = n := Nat.div_add_mod n (2 ^ sh)
  have hr : r < 2 ^ sh := Nat.mod_lt _ (by positivity)
  have hlow := bitLength_lower hn
  have hlen : bitLength n = sh + 53 := by omega
  rw [hlen, pow_add] at hlow
  have hq : q * 2 ^ sh + r = n := by rw [Nat.mul_comm]; exact hdm
  refine ⟨?_, ?_, ?_⟩
  · show (if r > half ∨ (r = half ∧ q % 2 = 1) then q + 1 else q) * 2 ^ sh ≤ n + half
    split
    · rename_i hc
      have : half ≤ r := by omega
      rw [Nat.add_mul]
      omega
    · omega
  · show n ≤ (if r > half ∨ (r = half ∧ q % 2 = 1) then q + 1 else q) * 2 ^ sh + half
    split
    · rw [Nat.add_mul]
      omega
    · rename_i hc
      have : r ≤ half := by omega
      omega
  · omega

theorem ulpHalf_pos : 0 < ulpHalf := by unfold ulpHalf; positivity

theorem roundNat_near (n : Nat) (e : Int) (hn : 0 < n) :
    (n : ℚ) * 2 ^ e * (1 - ulpHalf) ≤ ((Dbl.roundNat n e).1 : ℚ) * 2 ^ (Dbl.roundNat n e).2 ∧
      ((Dbl.roundNat n e).1 : ℚ) * 2 ^ (Dbl.roundNat n e).2 ≤ (n : ℚ) * 2 ^ e * (1 + ulpHalf) := by
  have h2e : (0 : ℚ) < 2 ^ e := by positivity
  have hnq : (0 : ℚ) < n := by exact_mod_cast hn
  have hu := ulpHalf_pos
  by_cases h53 : bitLength n ≤ 53
  · have hr : Dbl.roundNat n e = (n, e) := by simp [Dbl.roundNat, h53]
    rw [hr]
    have : (0 : ℚ) ≤ n * 2 ^ e := by positivity
    constructor <;> nlinarith
  · obtain ⟨h1, h2, h3⟩ := roundNat_nat n hn h53
    have hr : Dbl.roundNat n e =
        ((if n % 2 ^ (bitLength n - 53) > 2 ^ (bitLength n - 53 - 1) ∨
            (n % 2 ^ (bitLength n - 53) = 2 ^ (bitLength n - 53 - 1) ∧
              n / 2 ^ (bitLength n - 53) % 2 = 1)
          then n / 2 ^ (bitLength n - 53) + 1 else n / 2 ^ (bitLength n - 53)),
          e + ((bitLength n - 53 : Nat) : Int)) := by
      simp [Dbl.roundNat, h53]
    rw [hr]
    simp only at h1 h2 h3 ⊢
    generalize (if n % 2 ^ (bitLength n - 53) > 2 ^ (bitLength n - 53 - 1) ∨
            (n % 2 ^ (bitLength n - 53) = 2 ^ (bitLength n - 53 - 1) ∧
              n / 2 ^ (bitLength n - 53) % 2 = 1)
          then n / 2 ^ (bitLength n - 53) + 1 else n / 2 ^ (bitLength n - 53)) = q' at h1 h2
    generalize bitLength n - 53 = sh at h1 h2 h3
    generalize 2 ^ (sh - 1) = half at h1 h2 h3
    have e1 : (2 : ℚ) ^ (e + (sh : Int)) = 2 ^ e * 2 ^ sh := by
      rw [zpow_add₀ (by norm_num), zpow_natCast]
    rw [e1]
    have h1' : (q' : ℚ) * 2 ^ sh ≤ n + half := by exact_mod_cast h1
    have h2' : (n : ℚ) ≤ q' * 2 ^ sh + half := by exact_mod_cast h2
    have h3' : (half : ℚ) * 2 ^ 53 ≤ n := by exact_mod_cast h3
    have h4 : (half : ℚ) ≤ n * ulpHalf := by
      unfold ulpHalf
      rw [mul_one_div, le_div_iff₀ (by positivity)]
      exact h3'
    constructor
    · have : (n : ℚ) * (1 - ulpHalf) ≤ q' * 2 ^ sh := by linarith
      calc (n : ℚ) * 2 ^ e * (1 - ulpHalf) = (n * (1 - ulpHalf)) * 2 ^ e := by ring
        _ ≤ (q' * 2 ^ sh) * 2 ^ e := mul_le_mul_of_nonneg_right this h2e.le
        _ = q' * (2 ^ e * 2 ^ sh) := by ring
    · have : (q' : ℚ) * 2 ^ sh ≤ n * (1 + ulpHalf) := by linarith
      calc (q' : ℚ) * (2 ^ e * 2 ^ sh) = (q' * 2 ^ sh) * 2 ^ e := by ring
        _ ≤ (n * (1 + ulpHalf)) * 2 ^ e := mul_le_mul_of_nonneg_right this h2e.le
        _ = n * 2 ^ e * (1 + ulpHalf) := by ring

theorem round_near (m e : Int) (hm : 0 ≤ m) :
    ∃ m' e' : Int, Dbl.round m e = .fin m' e' ∧ 0 ≤ m' ∧
      (m : ℚ) * 2 ^ e * (1 - ulpHalf) ≤ (m' : ℚ) * 2 ^ e' ∧
      (m' : ℚ) * 2 ^ e' ≤ (m : ℚ) * 2 ^ e * (1 + ulpHalf) := by
  by_cases h0 : m = 0
  · subst h0
    refine ⟨0, 0, by simp [Dbl.round, Dbl.zero], le_refl _, ?_, ?_⟩ <;> simp
  · have hpos : 0 < m := lt_of_le_of_ne hm (Ne.symm h0)
    have hn : 0 < m.natAbs := Int.natAbs_pos.2 h0
    have hcast : ((m.natAbs : Nat) : ℚ) = (m : ℚ) := by
      have h : ((m.natAbs : Nat) : Int) = m := Int.natAbs_of_nonneg hm
      calc ((m.natAbs : Nat) : ℚ) = (((m.natAbs : Nat) : Int) : ℚ) := (Int.cast_natCast _).symm
        _ = (m : ℚ) := by rw [h]
    obtain ⟨h1, h2⟩ := roundNat_near m.natAbs e hn
    rw [hcast] at h1 h2
    refine ⟨((Dbl.roundNat m.natAbs e).1 : Int), (Dbl.roundNat m.natAbs e).2, ?_,
      Int.natCast_nonneg _, ?_, ?_⟩
    · simp [Dbl.round, h0, not_lt.2 hm]
    · exact_mod_cast h1
    · exact_mod_cast h2

theorem rho_pos : 0 < rho := by unfold rho; positivity

theorem one_le_rho : 1 ≤ rho := by unfold rho; norm_num

theorem rho_round_up : 1 + ulpHalf ≤ rho := by unfold rho ulpHalf; norm_num

theorem rho_round_down : 1 / rho ≤ 1 - ulpHalf := by unfold rho ulpHalf; norm_num

theorem rho_pow_pos (k : Nat) : 0 < rho ^ k := pow_pos rho_pos k

/-- Rounding a value within `rho ^ k` of `V` gives a double within
`rho ^ (k + 1)` of `V`. -/
theorem near_round {m e : Int} {V : ℚ} {k : Nat} (hm : 0 ≤ m) (hV : 0 ≤ V)
    (hlo : V / rho ^ k ≤ (m : ℚ) * 2 ^ e) (hhi : (m : ℚ) * 2 ^ e ≤ V * rho ^ k) :
    (Dbl.round m e).Near V (k + 1) := by
  obtain ⟨m', e', hr, hm', h1, h2⟩ := round_near m e hm
  have hv : (0 : ℚ) ≤ (m : ℚ) * 2 ^ e := by
    have : (0 : ℚ) ≤ m := by exact_mod_cast hm
    positivity
  refine ⟨hV, m', e', hr, hm', ?_, ?_⟩
  · calc V / rho ^ (k + 1) = (V / rho ^ k) * (1 / rho) := by
          rw [pow_succ]; field_simp [(rho_pow_pos k).ne', rho_pos.ne']
      _ ≤ ((m : ℚ) * 2 ^ e) * (1 / rho) :=
          mul_le_mul_of_nonneg_right hlo (by have := rho_pos; positivity)
      _ ≤ ((m : ℚ) * 2 ^ e) * (1 - ulpHalf) := mul_le_mul_of_nonneg_left rho_round_down hv
      _ ≤ (m' : ℚ) * 2 ^ e' := h1
  · calc (m' : ℚ) * 2 ^ e' ≤ (m : ℚ) * 2 ^ e * (1 + ulpHalf) := h2
      _ ≤ (m : ℚ) * 2 ^ e * rho := mul_le_mul_of_nonneg_left rho_round_up hv
      _ ≤ (V * rho ^ k) * rho := mul_le_mul_of_nonneg_right hhi rho_pos.le
      _ = V * rho ^ (k + 1) := by rw [pow_succ]; ring

theorem near_zero (k : Nat) : Dbl.zero.Near 0 k :=
  ⟨le_refl _, 0, 0, rfl, le_refl _, by simp, by simp⟩

theorem near_ofNat (n : Nat) : (Dbl.ofNat n).Near n 0 :=
  ⟨by positivity, n, 0, rfl, Int.natCast_nonneg _, by simp, by simp⟩

theorem near_mono {x : Dbl} {V : ℚ} {k k' : Nat} (h : x.Near V k) (hk : k ≤ k') :
    x.Near V k' := by
  obtain ⟨hV, m, e, hx, hm, hlo, hhi⟩ := h
  have hpow : rho ^ k ≤ rho ^ k' := pow_le_pow_right₀ one_le_rho hk
  refine ⟨hV, m, e, hx, hm, le_trans ?_ hlo, le_trans hhi ?_⟩
  · exact div_le_div_of_nonneg_left hV (rho_pow_pos k) hpow
  · exact mul_le_mul_of_nonneg_left hpow hV

theorem mul_near {x y : Dbl} {V₁ V₂ : ℚ} {k₁ k₂ : Nat} (hx : x.Near V₁ k₁)
    (hy : y.Near V₂ k₂) : (Dbl.mul x y).Near (V₁ * V₂) (k₁ + k₂ + 1) := by
  obtain ⟨hV₁, m₁, e₁, rfl, hm₁, hlo₁, hhi₁⟩ := hx
  obtain ⟨hV₂, m₂, e₂, rfl, hm₂, hlo₂, hhi₂⟩ := hy
  have hv₁ : (0 : ℚ) ≤ (m₁ : ℚ) * 2 ^ e₁ := by
    have : (0 : ℚ) ≤ m₁ := by exact_mod_cast hm₁
    positivity
  have hv₂ : (0 : ℚ) ≤ (m₂ : ℚ) * 2 ^ e₂ := by
    have : (0 : ℚ) ≤ m₂ := by exact_mod_cast hm₂
    positivity
  have hval : ((m₁ * m₂ : Int) : ℚ) * 2 ^ (e₁ + e₂) = ((m₁ : ℚ) * 2 ^ e₁) * ((m₂ : ℚ) * 2 ^ e₂) := by
    rw [zpow_add₀ (by norm_num : (2 : ℚ) ≠ 0)]
    push_cast
    ring
  show (Dbl.round (m₁ * m₂) (e₁ + e₂)).Near (V₁ * V₂) (k₁ + k₂ + 1)
  apply near_round (Int.mul_nonneg hm₁ hm₂) (mul_nonneg hV₁ hV₂)
  · rw [hval, pow_add]
    calc V₁ * V₂ / (rho ^ k₁ * rho ^ k₂) = (V₁ / rho ^ k₁) * (V₂ / rho ^ k₂) := by
          field_simp [(rho_pow_pos k₁).ne', (rho_pow_pos k₂).ne']
      _ ≤ ((m₁ : ℚ) * 2 ^ e₁) * ((m₂ : ℚ) * 2 ^ e₂) :=
          mul_le_mul hlo₁ hlo₂ (div_nonneg hV₂ (rho_pow_pos k₂).le) hv₁
  · rw [hval, pow_add]
    calc ((m₁ : ℚ) * 2 ^ e₁) * ((m₂ : ℚ) * 2 ^ e₂) ≤ (V₁ * rho ^ k₁) * (V₂ * rho ^ k₂) :=
          mul_le_mul hhi₁ hhi₂ hv₂ (mul_nonneg hV₁ (rho_pow_pos k₁).le)
      _ = V₁ * V₂ * (rho ^ k₁ * rho ^ k₂) := by ring

theorem zpow_shift {e e₀ : Int} (h : e₀ ≤ e) :
    (((2 : Int) ^ (e - e₀).toNat : Int) : ℚ) * (2 : ℚ) ^ e₀ = (2 : ℚ) ^ e := by
  have h1 : (((e - e₀).toNat : Nat) : Int) = e - e₀ := Int.toNat_of_nonneg (sub_nonneg.2 h)
  push_cast
  rw [← zpow_natCast, h1, ← zpow_add₀ (by norm_num : (2 : ℚ) ≠ 0)]
  congr 1
  ring

theorem add_near {x y : Dbl} {V₁ V₂ : ℚ} {k : Nat} (hx : x.Near V₁ k) (hy : y.Near V₂ k) :
    (Dbl.add x y).Near (V₁ + V₂) (k + 1) := by
  obtain ⟨hV₁, m₁, e₁, rfl, hm₁, hlo₁, hhi₁⟩ := hx
  obtain ⟨hV₂, m₂, e₂, rfl, hm₂, hlo₂, hhi₂⟩ := hy
  have hval : ((m₁ * 2 ^ (e₁ - min e₁ e₂).toNat + m₂ * 2 ^ (e₂ - min e₁ e₂).toNat : Int) : ℚ)
      * 2 ^ (min e₁ e₂) = (m₁ : ℚ) * 2 ^ e₁ + (m₂ : ℚ) * 2 ^ e₂ := by
    have s₁ := zpow_shift (min_le_left e₁ e₂)
    have s₂ := zpow_shift (min_le_right e₁ e₂)
    rw [Int.cast_add, Int.cast_mul, Int.cast_mul, add_mul, mul_assoc, mul_assoc, s₁, s₂]
  show (Dbl.round (m₁ * 2 ^ (e₁ - min e₁ e₂).toNat + m₂ * 2 ^ (e₂ - min e₁ e₂).toNat)
    (min e₁ e₂)).Near (V₁ + V₂) (k + 1)
  apply near_round
  · have h1 : (0 : Int) ≤ 2 ^ (e₁ - min e₁ e₂).toNat := by positivity
    have h2 : (0 : Int) ≤ 2 ^ (e₂ - min e₁ e₂).toNat := by positivity
    exact Int.add_nonneg (Int.mul_nonneg hm₁ h1) (Int.mul_nonneg hm₂ h2)
  · exact add_nonneg hV₁ hV₂
  · rw [hval, add_div]
    exact add_le_add hlo₁ hlo₂
  · rw [hval, add_mul]
    exact add_le_add hhi₁ hhi₂

theorem div_mant_nat (a b : Nat) (hb : 0 < b) :
    (2 * (a * 2 ^ (64 + bitLength b) / b)
        + (if a * 2 ^ (64 + bitLength b) % b = 0 then 0 else 1)) * b
      ≤ 2 * (a * 2 ^ (64 + bitLength b)) + b ∧
    2 * (a * 2 ^ (64 + bitLength b))
      ≤ (2 * (a * 2 ^ (64 + bitLength b) / b)
        + (if a * 2 ^ (64 + bitLength b) % b = 0 then 0 else 1)) * b + b ∧
    (0 < a → b * 2 ^ 65 ≤ 2 * (a * 2 ^ (64 + bitLength b))) := by
  have hup := bitLength_upper b
  generalize bitLength b = L at hup
  have hdm : b * (a * 2 ^ (64 + L) / b) + a * 2 ^ (64 + L) % b = a * 2 ^ (64 + L) :=
    Nat.div_add_mod _ _
  have hr : a * 2 ^ (64 + L) % b < b := Nat.mod_lt _ hb
  generalize a * 2 ^ (64 + L) % b = r at hdm hr
  have hthird : 0 < a → b * 2 ^ 65 ≤ 2 * (a * 2 ^ (64 + L)) := by
    intro ha
    have h1 : 2 ^ 64 * b ≤ 2 ^ 64 * 2 ^ L := Nat.mul_le_mul_left _ hup.le
    have h2 : 1 * (2 ^ 64 * 2 ^ L) ≤ a * (2 ^ 64 * 2 ^ L) := Nat.mul_le_mul_right _ ha
    rw [pow_add]
    omega
  generalize a * 2 ^ (64 + L) = N at hdm hthird
  have hexp : ∀ s : Nat, (2 * (N / b) + s) * b = 2 * (b * (N / b)) + s * b := by
    intro s; ring
  refine ⟨?_, ?_, hthird⟩
  · rw [hexp]
    split <;> omega
  · rw [hexp]
    split <;> omega

theorem rho_eta_up : 1 + 1 / (2 : ℚ) ^ 65 ≤ rho := by unfold rho; norm_num

theorem rho_eta_down : 1 / rho ≤ 1 - 1 / (2 : ℚ) ^ 65 := by unfold rho; norm_num

theorem natAbs_cast {m : Int} (hm : 0 ≤ m) : ((m.natAbs : Nat) : ℚ) = (m : ℚ) := by
  have h : ((m.natAbs : Nat) : Int) = m := Int.natAbs_of_nonneg hm
  calc ((m.natAbs : Nat) : ℚ) = (((m.natAbs : Nat) : Int) : ℚ) := (Int.cast_natCast _).symm
    _ = (m : ℚ) := by rw [h]

theorem div_fin_eq {m₁ m₂ : Int} (e₁ e₂ : Int) (hm₁ : 0 ≤ m₁) (hm₂ : 0 < m₂) :
    Dbl.div (.fin m₁ e₁) (.fin m₂ e₂) =
      Dbl.round
        (((2 * (m₁.natAbs * 2 ^ (64 + bitLength m₂.natAbs) / m₂.natAbs)
          + (if m₁.natAbs * 2 ^ (64 + bitLength m₂.natAbs) % m₂.natAbs = 0 then 0 else 1)
            : Nat) : Int))
        (e₁ - e₂ - ((64 + bitLength m₂.natAbs : Nat) : Int) - 1) := by
  have h2 : m₂ ≠ 0 := ne_of_gt hm₂
  have hs : ((m₁ < 0) = (m₂ < 0)) := by
    simp [not_lt.2 hm₁, not_lt.2 hm₂.le]
  simp only [Dbl.div, h2, if_false, hs, if_true]

/-- The value handed to the rounding by a division of `a * 2 ^ e₁` by
`b * 2 ^ e₂`, `a > 0`, is within the factor `1 ± 2 ^ (-65)` of the quotient. -/
theorem div_mant_near (a b : Nat) (e₁ e₂ : Int) (ha : 0 < a) (hb : 0 < b) :
    ((a : ℚ) * 2 ^ e₁) / ((b : ℚ) * 2 ^ e₂) * (1 - 1 / 2 ^ 65) ≤
        (((2 * (a * 2 ^ (64 + bitLength b) / b)
          + (if a * 2 ^ (64 + bitLength b) % b = 0 then 0 else 1) : Nat) : Int) : ℚ)
          * 2 ^ (e₁ - e₂ - ((64 + bitLength b : Nat) : Int) - 1) ∧
      (((2 * (a * 2 ^ (64 + bitLength b) / b)
          + (if a * 2 ^ (64 + bitLength b) % b = 0 then 0 else 1) : Nat) : Int) : ℚ)
          * 2 ^ (e₁ - e₂ - ((64 + bitLength b : Nat) : Int) - 1) ≤
        ((a : ℚ) * 2 ^ e₁) / ((b : ℚ) * 2 ^ e₂) * (1 + 1 / 2 ^ 65) := by
  obtain ⟨h1, h2, h3⟩ := div_mant_nat a b hb
  have h3 := h3 ha
  generalize (2 * (a * 2 ^ (64 + bitLength b) / b)
    + (if a * 2 ^ (64 + bitLength b) % b = 0 then 0 else 1)) = mant at h1 h2
  generalize 64 + bitLength b = k at h1 h2 h3
  have hbq : (0 : ℚ) < b := by exact_mod_cast hb
  have h1' : (mant : ℚ) * b ≤ 2 * (a * 2 ^ k) + b := by exact_mod_cast h1
  have h2' : (2 : ℚ) * (a * 2 ^ k) ≤ mant * b + b := by exact_mod_cast h2
  have h3' : (b : ℚ) * 2 ^ 65 ≤ 2 * (a * 2 ^ k) := by exact_mod_cast h3
  have hE : (2 : ℚ) ^ (e₁ - e₂ - (k : Int) - 1) = 2 ^ e₁ / (2 ^ e₂ * 2 ^ k * 2) := by
    rw [zpow_sub₀ (by norm_num), zpow_sub₀ (by norm_num), zpow_sub₀ (by norm_num),
      zpow_natCast, zpow_one]
    field_simp
  have hP : (0 : ℚ) < 2 ^ e₁ / ((b : ℚ) * (2 ^ e₂ * 2 ^ k * 2)) := by positivity
  have hW : ((mant : Int) : ℚ) * 2 ^ (e₁ - e₂ - (k : Int) - 1)
      = ((mant : ℚ) * b) * (2 ^ e₁ / ((b : ℚ) * (2 ^ e₂ * 2 ^ k * 2))) := by
    rw [hE, Int.cast_natCast]
    field_simp
    ring
  have hT : ((a : ℚ) * 2 ^ e₁) / ((b : ℚ) * 2 ^ e₂)
      = (2 * ((a : ℚ) * 2 ^ k)) * (2 ^ e₁ / ((b : ℚ) * (2 ^ e₂ * 2 ^ k * 2))) := by
    field_simp
    ring
  have hb65 : (b : ℚ) ≤ 2 * (a * 2 ^ k) * (1 / 2 ^ 65) := by
    rw [mul_one_div, le_div_iff₀ (by positivity)]
    exact h3'
  rw [hW, hT]
  constructor
  · have : 2 * ((a : ℚ) * 2 ^ k) * (1 - 1 / 2 ^ 65) ≤ (mant : ℚ) * b := by linarith
    calc 2 * ((a : ℚ) * 2 ^ k) * (2 ^ e₁ / ((b : ℚ) * (2 ^ e₂ * 2 ^ k * 2))) * (1 - 1 / 2 ^ 65)
        = (2 * ((a : ℚ) * 2 ^ k) * (1 - 1 / 2 ^ 65))
            * (2 ^ e₁ / ((b : ℚ) * (2 ^ e₂ * 2 ^ k * 2))) := by ring
      _ ≤ ((mant : ℚ) * b) * (2 ^ e₁ / ((b : ℚ) * (2 ^ e₂ * 2 ^ k * 2))) :=
          mul_le_mul_of_nonneg_right this hP.le
  · have : (mant : ℚ) * b ≤ 2 * ((a : ℚ) * 2 ^ k) * (1 + 1 / 2 ^ 65) := by linarith
    calc ((mant : ℚ) * b) * (2 ^ e₁ / ((b : ℚ) * (2 ^ e₂ * 2 ^ k * 2)))
        ≤ (2 * ((a : ℚ) * 2 ^ k) * (1 + 1 / 2 ^ 65))
            * (2 ^ e₁ / ((b : ℚ) * (2 ^ e₂ * 2 ^ k * 2))) :=
          mul_le_mul_of_nonneg_right this hP.le
      _ = 2 * ((a : ℚ) * 2 ^ k) * (2 ^ e₁ / ((b : ℚ) * (2 ^ e₂ * 2 ^ k * 2)))
            * (1 + 1 / 2 ^ 65) := by ring

theorem div_enclose_lo (V₁ V₂ a b r : ℚ) :
    V₁ / V₂ / (a * b * r) = V₁ / a / (V₂ * b) * (1 / r) := by
  rw [div_div, div_div, div_mul_div_comm, mul_one]
  congr 1
  ring

theorem div_enclose_hi (V₁ V₂ a b r : ℚ) (hV : V₂ ≠ 0) :
    V₁ * a / (V₂ / b) * r = V₁ / V₂ * (a * b * r) := by
  field_simp
  ring

theorem div_near {x y : Dbl} {V₁ V₂ : ℚ} {k₁ k₂ : Nat} (hx : x.Near V₁ k₁)
    (hy : y.Near V₂ k₂) (hpos : 0 < V₂) : (Dbl.div x y).Near (V₁ / V₂) (k₁ + k₂ + 2) := by
  obtain ⟨hV₁, m₁, e₁, rfl, hm₁, hlo₁, hhi₁⟩ := hx
  obtain ⟨hV₂, m₂, e₂, rfl, hm₂, hlo₂, hhi₂⟩ := hy
  have hr₁ := rho_pow_pos k₁
  have hr₂ := rho_pow_pos k₂
  have hv₂ : (0 : ℚ) < (m₂ : ℚ) * 2 ^ e₂ := lt_of_lt_of_le (div_pos hpos hr₂) hlo₂
  have h2e₂ : (0 : ℚ) < 2 ^ e₂ := by positivity
  have hm₂q : (0 : ℚ) < m₂ := by
    by_contra hc
    have : (m₂ : ℚ) * 2 ^ e₂ ≤ 0 := mul_nonpos_of_nonpos_of_nonneg (not_lt.1 hc) h2e₂.le
    linarith
  have hm₂pos : 0 < m₂ := by exact_mod_cast hm₂q
  have hv₁ : (0 : ℚ) ≤ (m₁ : ℚ) * 2 ^ e₁ := by
    have : (0 : ℚ) ≤ m₁ := by exact_mod_cast hm₁
    positivity
  rw [div_fin_eq e₁ e₂ hm₁ hm₂pos]
  by_cases ha : m₁.natAbs = 0
  · have hm0 : m₁ = 0 := Int.natAbs_eq_zero.1 ha
    have hV0 : V₁ = 0 := by
      subst hm0
      simp only [Int.cast_zero, zero_mul] at hlo₁
      have : V₁ ≤ 0 := by
        by_contra hc
        have := div_pos (not_le.1 hc) hr₁
        linarith
      exact le_antisymm this hV₁
    have hz : Dbl.round
        (((2 * (m₁.natAbs * 2 ^ (64 + bitLength m₂.natAbs) / m₂.natAbs)
          + (if m₁.natAbs * 2 ^ (64 + bitLength m₂.natAbs) % m₂.natAbs = 0 then 0 else 1)
            : Nat) : Int))
        (e₁ - e₂ - ((64 + bitLength m₂.natAbs : Nat) : Int) - 1) = Dbl.zero := by
      simp [ha, Dbl.round]
    rw [hz, hV0, zero_div]
    exact near_zero _
  · have hapos : 0 < m₁.natAbs := Nat.pos_of_ne_zero ha
    have hbpos : 0 < m₂.natAbs := Int.natAbs_pos.2 (ne_of_gt hm₂pos)
    obtain ⟨hl, hu⟩ := div_mant_near m₁.natAbs m₂.natAbs e₁ e₂ hapos hbpos
    rw [natAbs_cast hm₁, natAbs_cast hm₂pos.le] at hl hu
    have hT : (0 : ℚ) ≤ ((m₁ : ℚ) * 2 ^ e₁) / ((m₂ : ℚ) * 2 ^ e₂) := div_nonneg hv₁ hv₂.le
    have hTlo : (V₁ / rho ^ k₁) / (V₂ * rho ^ k₂)
        ≤ ((m₁ : ℚ) * 2 ^ e₁) / ((m₂ : ℚ) * 2 ^ e₂) :=
      div_le_div₀ hv₁ hlo₁ hv₂ hhi₂
    have hThi : ((m₁ : ℚ) * 2 ^ e₁) / ((m₂ : ℚ) * 2 ^ e₂)
        ≤ (V₁ * rho ^ k₁) / (V₂ / rho ^ k₂) :=
      div_le_div₀ (mul_nonneg hV₁ hr₁.le) hhi₁ (div_pos hpos hr₂) hlo₂
    apply near_round (k := k₁ + k₂ + 1) (Int.natCast_nonneg _) (div_nonneg hV₁ hpos.le)
    · refine le_trans ?_ hl
      calc V₁ / V₂ / rho ^ (k₁ + k₂ + 1)
          = (V₁ / rho ^ k₁) / (V₂ * rho ^ k₂) * (1 / rho) := by
            rw [pow_succ, pow_add]
            exact div_enclose_lo _ _ _ _ _
        _ ≤ ((m₁ : ℚ) * 2 ^ e₁) / ((m₂ : ℚ) * 2 ^ e₂) * (1 / rho) :=
            mul_le_mul_of_nonneg_right hTlo (by have := rho_pos; positivity)
        _ ≤ ((m₁ : ℚ) * 2 ^ e₁) / ((m₂ : ℚ) * 2 ^ e₂) * (1 - 1 / 2 ^ 65) :=
            mul_le_mul_of_nonneg_left rho_eta_down hT
    · refine le_trans hu ?_
      calc ((m₁ : ℚ) * 2 ^ e₁) / ((m₂ : ℚ) * 2 ^ e₂) * (1 + 1 / 2 ^ 65)
          ≤ ((m₁ : ℚ) * 2 ^ e₁) / ((m₂ : ℚ) * 2 ^ e₂) * rho :=
            mul_le_mul_of_nonneg_left rho_eta_up hT
        _ ≤ (V₁ * rho ^ k₁) / (V₂ / rho ^ k₂) * rho :=
            mul_le_mul_of_nonneg_right hThi rho_pos.le
        _ = V₁ / V₂ * rho ^ (k₁ + k₂ + 1) := by
            rw [pow_succ, pow_add]
            exact div_enclose_hi _ _ _ _ _ hpos.ne'

theorem rho_pow_le (K : Nat) (hK : K ≤ 16) : rho ^ K ≤ 1 + 1 / 512 := by
  have h : rho ^ K ≤ rho ^ 16 := pow_le_pow_right₀ one_le_rho hK
  have h12 : rho ^ 16 ≤ 1 + 1 / 512 := by unfold rho; norm_num
  exact le_trans h h12

theorem finLe_iff (m e : Int) :
    Dbl.finLe m e 255 0 = true ↔ (m : ℚ) * 2 ^ e ≤ 255 := by
  have s₁ := zpow_shift (min_le_left e 0)
  have s₂ := zpow_shift (min_le_right e 0)
  have hp : (0 : ℚ) < 2 ^ (min e 0) := by positivity
  simp only [Dbl.finLe, decide_eq_true_eq]
  rw [← Int.cast_le (R := ℚ), ← mul_le_mul_right hp, Int.cast_mul, Int.cast_mul, mul_assoc,
    mul_assoc, s₁, s₂]
  simp

/-- The integer stored for a finite double that is not negative is the integer
part of its value. -/
theorem store_floor (m e : Int) (hm : 0 ≤ m) :
    ∃ t : Int, Dbl.store (.fin m e) = toUint8 t ∧ 0 ≤ t ∧ (t : ℚ) ≤ (m : ℚ) * 2 ^ e ∧
      (m : ℚ) * 2 ^ e < t + 1 := by
  by_cases he : 0 ≤ e
  · refine ⟨m * 2 ^ e.toNat, by simp [Dbl.store, he], ?_, ?_, ?_⟩
    · have : (0 : Int) ≤ 2 ^ e.toNat := by positivity
      exact Int.mul_nonneg hm this
    · have h1 : ((e.toNat : Nat) : Int) = e := Int.toNat_of_nonneg he
      have : (((m * 2 ^ e.toNat : Int)) : ℚ) = (m : ℚ) * 2 ^ e := by
        push_cast
        rw [← zpow_natCast, h1]
      rw [this]
    · have h1 : ((e.toNat : Nat) : Int) = e := Int.toNat_of_nonneg he
      have : (((m * 2 ^ e.toNat : Int)) : ℚ) = (m : ℚ) * 2 ^ e := by
        push_cast
        rw [← zpow_natCast, h1]
      rw [this]
      linarith
  · have hneg : 0 ≤ -e := by omega
    have h1 : (((-e).toNat : Nat) : Int) = -e := Int.toNat_of_nonneg hneg
    have hPpos : (0 : Int) < 2 ^ (-e).toNat := by positivity
    have hPq : (0 : ℚ) < ((2 ^ (-e).toNat : Int) : ℚ) := by exact_mod_cast hPpos
    have hval : (m : ℚ) * 2 ^ e = (m : ℚ) / ((2 ^ (-e).toNat : Int) : ℚ) := by
      have : (((2 : Int) ^ (-e).toNat : Int) : ℚ) = (2 : ℚ) ^ (-e) := by
        push_cast
        rw [← zpow_natCast, h1]
      rw [this, zpow_neg, div_inv_eq_mul]
    have htd : Int.tdiv m (2 ^ (-e).toNat) = m / 2 ^ (-e).toNat :=
      Int.tdiv_eq_ediv hm hPpos.le
    refine ⟨m / 2 ^ (-e).toNat, by simp [Dbl.store, he, htd], ?_, ?_, ?_⟩
    · exact Int.ediv_nonneg hm hPpos.le
    · rw [hval, le_div_iff₀ hPq]
      have := Int.ediv_mul_le m (ne_of_gt hPpos)
      exact_mod_cast this
    · rw [hval, div_lt_iff₀ hPq]
      have := Int.lt_ediv_add_one_mul_self m hPpos
      exact_mod_cast this

theorem store_limit_near {y : Dbl} {d K : Nat} (hy : y.Near d K) (hK : K ≤ 16)
    (hd : d ≤ 255) :
    Dbl.store (Dbl.limit255 y) = d ∨ Dbl.store (Dbl.limit255 y) + 1 = d := by
  obtain ⟨-, m, e, rfl, hm, hlo, hhi⟩ := hy
  have hρ := rho_pow_le K hK
  have hρpos := rho_pow_pos K
  have hdq : (d : ℚ) ≤ 255 := by exact_mod_cast hd
  have hd0 : (0 : ℚ) ≤ d := by positivity
  have hYhi : (m : ℚ) * 2 ^ e < d + 1 := by
    have : (d : ℚ) * rho ^ K ≤ d * (1 + 1 / 512) := mul_le_mul_of_nonneg_left hρ hd0
    linarith
  have hYlo : (d : ℚ) - 1 < (m : ℚ) * 2 ^ e := by
    have h1 : (d : ℚ) * (1 - 1 / 512) ≤ d / rho ^ K := by
      rw [le_div_iff₀ hρpos]
      have : (1 - 1 / 512 : ℚ) * rho ^ K ≤ 1 := by nlinarith
      calc (d : ℚ) * (1 - 1 / 512) * rho ^ K = d * ((1 - 1 / 512) * rho ^ K) := by ring
        _ ≤ d * 1 := mul_le_mul_of_nonneg_left this hd0
        _ = d := mul_one _
    linarith
  have hlim : Dbl.limit255 (.fin m e) =
      if Dbl.finLe m e 255 0 then .fin m e else Dbl.ofNat 255 := by
    simp [Dbl.limit255, not_lt.2 hm]
  rw [hlim]
  by_cases hle : Dbl.finLe m e 255 0 = true
  · rw [if_pos hle]
    obtain ⟨t, hst, ht0, ht1, ht2⟩ := store_floor m e hm
    have hY := (finLe_iff m e).1 hle
    rw [hst]
    have hA : (t : ℚ) < (d : ℚ) + 1 := lt_of_le_of_lt ht1 hYhi
    have hB : (d : ℚ) - 1 < (t : ℚ) + 1 := lt_trans hYlo ht2
    have hA' : t < (d : Int) + 1 := by exact_mod_cast hA
    have hB' : (d : Int) - 1 < t + 1 := by exact_mod_cast hB
    unfold toUint8
    omega
  · rw [if_neg hle]
    have hY : ¬ (m : ℚ) * 2 ^ e ≤ 255 := fun h => hle ((finLe_iff m e).2 h)
    have hd255 : (254 : ℚ) < d := by linarith [not_le.1 hY]
    have hd' : 254 < d := by exact_mod_cast hd255
    have : d = 255 := by omega
    subst this
    left
    decide

theorem chan_near (v : Nat) : (chan v).Near ((v : ℚ) / 255) 2 := by
  have h := div_near (near_ofNat v) (near_ofNat 255) (by norm_num)
  simpa [chan] using h

theorem sub_zero_eq (x : Dbl) : Dbl.sub x Dbl.zero = Dbl.add x Dbl.zero := by
  have h : Dbl.neg Dbl.zero = Dbl.zero := by decide
  rw [Dbl.sub, h]

/-- Under a transparent source pixel, over a base pixel of alpha at least 1,
the colour byte of the base comes back unchanged or one lower. -/
theorem blendChan_translucent (d da : Nat) (hd : d ≤ 255) (hda : 0 < da) :
    blendChan 0 0 d da (Dbl.ofNat 1) = d ∨ blendChan 0 0 d da (Dbl.ofNat 1) + 1 = d := by
  unfold blendChan
  rw [srcAlpha_zero, mul_chan_zero 0, mul_chan_zero da, sub_zero_eq, sub_zero_eq]
  have hdaq : (0 : ℚ) < da := by exact_mod_cast hda
  have h1 := mul_near (chan_near d) (chan_near da)
  have hone : (Dbl.add (Dbl.ofNat 1) Dbl.zero).Near (((1 : Nat) : ℚ) + 0) 1 :=
    add_near (near_ofNat 1) (near_zero 0)
  have h2 := mul_near h1 hone
  have h3 := add_near (near_zero _) h2
  have h4 := add_near (chan_near da) (near_zero 2)
  have h5 := add_near h4 (near_zero 3)
  have hden : (0 : ℚ) < (da : ℚ) / 255 + 0 + 0 := by positivity
  have h6 := div_near h3 h5 hden
  have h7 := mul_near h6 (near_ofNat 255)
  have hval : (0 + (d : ℚ) / 255 * ((da : ℚ) / 255) * (((1 : Nat) : ℚ) + 0))
      / ((da : ℚ) / 255 + 0 + 0) * ((255 : Nat) : ℚ) = (d : ℚ) := by
    push_cast
    field_simp
    ring
  rw [hval] at h7
  exact store_limit_near h7 (by norm_num) hd

set_option maxRecDepth 100000 in
set_option maxHeartbeats 0 in
theorem blendAlpha_transparent : ∀ da, da < 256 → blendAlpha 0 da (Dbl.ofNat 1) = da := by
  decide

theorem blendPixel_transparent_bounds (src dst : RGBA) (hs : src.a = 0) (hr : dst.r < 256)
    (hg : dst.g < 256) (hb : dst.b < 256) (ha : dst.a < 256) :
    (blendPixel src dst (Dbl.ofNat 1)).a = dst.a ∧
      (0 < dst.a →
        SameOrOneLower (blendPixel src dst (Dbl.ofNat 1)).r dst.r ∧
        SameOrOneLower (blendPixel src dst (Dbl.ofNat 1)).g dst.g ∧
        SameOrOneLower (blendPixel src dst (Dbl.ofNat 1)).b dst.b) := by
  obtain ⟨sr, sg, sb, sa⟩ := src
  obtain ⟨dr, dg, db, da⟩ := dst
  simp only at hs hr hg hb ha
  subst hs
  rw [blendPixel_eq]
  simp only [blendChan_transparent, blendAlpha_transparent _ ha, SameOrOneLower]
  exact ⟨trivial, fun hpos =>
    ⟨blendChan_translucent dr da (by omega) hpos, blendChan_translucent dg da (by omega) hpos,
      blendChan_translucent db da (by omega) hpos⟩⟩

theorem getPixelIndexCrop_eq {c : Bitmap} {x y : Nat} (hx : x < c.width) (hy : y < c.height) :
    c.getPixelIndexCrop x y = some (pixIdx c.width (x, y)) := by
  simp [Bitmap.getPixelIndexCrop, pixIdx, Nat.not_le.2 hx, Nat.not_le.2 hy]

theorem compositeStep_in_range (src base : Bitmap) (ops : Dbl) {w h : Nat}
    (hb : base.HasSize w h) {p : Nat × Nat} (hx : p.1 < w) (hy : p.2 < h) (idx : Nat) :
    (compositeStep src 0 0 ops base p.1 p.2 idx).HasSize w h ∧
      (∀ j, (j < pixIdx w p ∨ pixIdx w p + 4 ≤ j) →
        readByte (compositeStep src 0 0 ops base p.1 p.2 idx).data j = readByte base.data j) ∧
      pixAt (compositeStep src 0 0 ops base p.1 p.2 idx).data (pixIdx w p) =
        blendPixel (pixAt src.data idx) (pixAt base.data (pixIdx w p)) ops := by
  have hidx : base.getPixelIndexCrop (0 + p.1) (0 + p.2) = some (pixIdx w p) := by
    rw [Nat.zero_add, Nat.zero_add,
      getPixelIndexCrop_eq (by rw [hb.1]; exact hx) (by rw [hb.2.1]; exact hy), hb.1]
  have hlen : pixIdx w p + 4 ≤ base.data.length := by
    have := pixel_index_lt hx hy
    rw [hb.2.2]
    simp only [pixIdx]
    omega
  unfold compositeStep
  rw [hidx]
  refine ⟨⟨hb.1, hb.2.1, ?_⟩, ?_, ?_⟩
  · simp only [length_writeByte]
    exact hb.2.2
  · intro j hj
    have h0 : ¬ pixIdx w p + 0 = j := by omega
    have h1 : ¬ pixIdx w p + 1 = j := by omega
    have h2 : ¬ pixIdx w p + 2 = j := by omega
    have h3 : ¬ pixIdx w p + 3 = j := by omega
    simp only [readByte_writeByte, h0, h1, h2, h3, false_and, if_false]
  · have h0 : pixIdx w p < base.data.length := by omega
    have h1 : pixIdx w p + 1 < base.data.length := by omega
    have h2 : pixIdx w p + 2 < base.data.length := by omega
    have h3 : pixIdx w p + 3 < base.data.length := by omega
    simp [pixAt, blendPixel, readByte_writeByte, length_writeByte, h0, h1, h2, h3]

/-- The composite of an overlay of the size of the base at offset `(0, 0)`
replaces every pixel of the base by its blend with the overlay pixel at the
same place. -/
theorem composite_pixel (base src : Bitmap) (ops : Dbl) (hlen : base.data.length
      = base.width * base.height * 4)
    (hw : src.width = base.width) (hh : src.height = base.height) :
    (base.composite src 0 0 ops).HasSize base.width base.height ∧
      ∀ x, x < base.width → ∀ y, y < base.height →
        (base.composite src 0 0 ops).pixel x y =
          blendPixel (src.pixel x y) (base.pixel x y) ops := by
  have key := foldl_pixel_local base.width (fun c : Bitmap => c.data)
    (fun c => c.HasSize base.width base.height)
    (fun acc p => compositeStep src 0 0 ops acc p.1 p.2 ((base.width * p.2 + p.1) * 4))
    (fun p old => blendPixel (pixAt src.data (pixIdx base.width p)) old ops)
    (scanCoords base.width base.height) (nodup_scanCoords _ _)
    (fun p hp => (mem_scanCoords.1 hp).1)
    (fun c p hp hc =>
      (compositeStep_in_range src c ops hc (mem_scanCoords.1 hp).1 (mem_scanCoords.1 hp).2 _).1)
    (fun c p j hp hc hj =>
      (compositeStep_in_range src c ops hc (mem_scanCoords.1 hp).1
        (mem_scanCoords.1 hp).2 _).2.1 j hj)
    (fun c p hp hc =>
      (compositeStep_in_range src c ops hc (mem_scanCoords.1 hp).1 (mem_scanCoords.1 hp).2 _).2.2)
    base ⟨rfl, rfl, hlen⟩
  have hscan : base.composite src 0 0 ops =
      (scanCoords base.width base.height).foldl
        (fun acc p => compositeStep src 0 0 ops acc p.1 p.2 ((base.width * p.2 + p.1) * 4))
        base := by
    unfold Bitmap.composite Bitmap.scan
    rw [hw, hh]
  rw [hscan]
  refine ⟨key.1, fun x hx y hy => ?_⟩
  have hk := key.2 (x, y) hx
  have hm : (x, y) ∈ scanCoords base.width base.height := mem_scanCoords.2 ⟨hx, hy⟩
  simp only [hm, if_true] at hk
  unfold Bitmap.pixel
  rw [key.1.1, hw]
  exact hk

theorem pixel_lt_of_WF {img : Bitmap} (h : img.WF) (x y : Nat) :
    (img.pixel x y).r < 256 ∧ (img.pixel x y).g < 256 ∧ (img.pixel x y).b < 256 :=
  ⟨readByte_lt_of_WF h _, readByte_lt_of_WF h _, readByte_lt_of_WF h _⟩

/-! ## Claim on the composite -/

/-- C9, as stated, fails: over a base pixel of alpha 0 the blend divides 0 by
0, and the `NaN` is stored as 0 in the three colour bytes.  The base pixel
`(32, 0, 0, 0)` under the transparent overlay pixel `(0, 0, 0, 0)` becomes
`(0, 0, 0, 0)`. -/
theorem composite_transparent_changes_clear_base :
    ¬ ∀ base overlay : Bitmap, base.WF → overlay.WF →
        overlay.width = base.width → overlay.height = base.height →
        (∀ x, x < overlay.width → ∀ y, y < overlay.height → (overlay.pixel x y).a = 0) →
        base.composite overlay 0 0 (Dbl.ofNat 1) = base := by
  intro h
  have h' := h ⟨1, 1, [32, 0, 0, 0]⟩ ⟨1, 1, [0, 0, 0, 0]⟩ (by decide) (by decide) rfl rfl
    (by decide)
  have e : Bitmap.composite ⟨1, 1, [32, 0, 0, 0]⟩ ⟨1, 1, [0, 0, 0, 0]⟩ 0 0 (Dbl.ofNat 1)
      = ⟨1, 1, [0, 0, 0, 0]⟩ := by decide
  rw [e] at h'
  revert h'
  decide

set_option maxRecDepth 100000 in
/-- The rounding of the blend also shows on a translucent base: the base pixel
`(96, 224, 0, 3)` under a transparent overlay pixel becomes `(95, 223, 0, 3)`. -/
theorem composite_transparent_rounds_translucent_base :
    Bitmap.composite ⟨1, 1, [96, 224, 0, 3]⟩ ⟨1, 1, [0, 0, 0, 0]⟩ 0 0 (Dbl.ofNat 1)
      = ⟨1, 1, [95, 223, 0, 3]⟩ := by
  decide

theorem pixel_alpha_lt_of_WF {img : Bitmap} (h : img.WF) (x y : Nat) :
    (img.pixel x y).a < 256 :=
  readByte_lt_of_WF h _

/-- C9, amended: for every base buffer and every overlay of the same dimensions
whose pixels are all fully transparent, the source-over composite (opacitySource
1, opacityDest 1) keeps the dimensions of the base and the alpha of every base
pixel; it returns every base pixel of alpha 255 unchanged in all four channels,
turns every base pixel of alpha 0 into `(0, 0, 0, 0)`, and returns each colour
byte of a base pixel of alpha 1 to 254 unchanged or one lower. -/
theorem composite_transparent_overlay (base overlay : Bitmap) (hb : base.WF)
    (hw : overlay.width = base.width) (hh : overlay.height = base.height)
    (htr : ∀ x, x < overlay.width → ∀ y, y < overlay.height → (overlay.pixel x y).a = 0) :
    (base.composite overlay 0 0 (Dbl.ofNat 1)).width = base.width ∧
      (base.composite overlay 0 0 (Dbl.ofNat 1)).height = base.height ∧
      (base.composite overlay 0 0 (Dbl.ofNat 1)).data.length = base.data.length ∧
      ∀ x, x < base.width → ∀ y, y < base.height →
        ((base.composite overlay 0 0 (Dbl.ofNat 1)).pixel x y).a = (base.pixel x y).a ∧
        ((base.pixel x y).a = 255 →
          (base.composite overlay 0 0 (Dbl.ofNat 1)).pixel x y = base.pixel x y) ∧
        ((base.pixel x y).a = 0 →
          (base.composite overlay 0 0 (Dbl.ofNat 1)).pixel x y = transparent) ∧
        (0 < (base.pixel x y).a →
          SameOrOneLower ((base.composite overlay 0 0 (Dbl.ofNat 1)).pixel x y).r
              (base.pixel x y).r ∧
            SameOrOneLower ((base.composite overlay 0 0 (Dbl.ofNat 1)).pixel x y).g
              (base.pixel x y).g ∧
            SameOrOneLower ((base.composite overlay 0 0 (Dbl.ofNat 1)).pixel x y).b
              (base.pixel x y).b) := by
  obtain ⟨hs, hp⟩ := composite_pixel base overlay (Dbl.ofNat 1) hb.1 hw hh
  refine ⟨hs.1, hs.2.1, hs.2.2.trans hb.1.symm, fun x hx y hy => ?_⟩
  have ht := htr x (by rw [hw]; exact hx) y (by rw [hh]; exact hy)
  obtain ⟨h1, h2, h3⟩ := pixel_lt_of_WF hb x y
  have h4 := pixel_alpha_lt_of_WF hb x y
  obtain ⟨hal, hcol⟩ := blendPixel_transparent_bounds _ _ ht h1 h2 h3 h4
  rw [hp x hx y hy]
  exact ⟨hal, fun ha => blendPixel_transparent_opaque _ _ ht h1 h2 h3 ha,
    fun ha => blendPixel_transparent_clear _ _ ht ha, hcol⟩

theorem composite_transparent_overlay_witness :
    sampleBase.WF ∧ sampleOverlay.width = sampleBase.width ∧
      sampleOverlay.height = sampleBase.height ∧
      (∀ x, x < sampleOverlay.width → ∀ y, y < sampleOverlay.height →
        (sampleOverlay.pixel x y).a = 0) ∧
      ((sampleBase.composite sampleOverlay 0 0 (Dbl.ofNat 1)).width = sampleBase.width ∧
        (sampleBase.composite sampleOverlay 0 0 (Dbl.ofNat 1)).height = sampleBase.height ∧
        (sampleBase.composite sampleOverlay 0 0 (Dbl.ofNat 1)).data.length
          = sampleBase.data.length ∧
        ∀ x, x < sampleBase.width → ∀ y, y < sampleBase.height →
          ((sampleBase.composite sampleOverlay 0 0 (Dbl.ofNat 1)).pixel x y).a
            = (sampleBase.pixel x y).a ∧
          ((sampleBase.pixel x y).a = 255 →
            (sampleBase.composite sampleOverlay 0 0 (Dbl.ofNat 1)).pixel x y
              = sampleBase.pixel x y) ∧
          ((sampleBase.pixel x y).a = 0 →
            (sampleBase.composite sampleOverlay 0 0 (Dbl.ofNat 1)).pixel x y = transparent) ∧
          (0 < (sampleBase.pixel x y).a →
            SameOrOneLower ((sampleBase.composite sampleOverlay 0 0 (Dbl.ofNat 1)).pixel x y).r
                (sampleBase.pixel x y).r ∧
              SameOrOneLower ((sampleBase.composite sampleOverlay 0 0 (Dbl.ofNat 1)).pixel x y).g
                (sampleBase.pixel x y).g ∧
              SameOrOneLower ((sampleBase.composite sampleOverlay 0 0 (Dbl.ofNat 1)).pixel x y).b
                (sampleBase.pixel x y).b)) :=
  ⟨by decide, rfl, rfl, by decide,
    composite_transparent_overlay sampleBase sampleOverlay (by decide) rfl rfl (by decide)⟩

set_option maxRecDepth 100000 in
/-- On the sample base the three cases show: the opaque pixel is unchanged, the
pixel of alpha 3 loses one in red and green, the pixel of alpha 0 is cleared. -/
theorem composite_sample :
    sampleBase.composite sampleOverlay 0 0 (Dbl.ofNat 1) =
      { width := 3, height := 1, data := [32, 64, 224, 255, 95, 223, 0, 3, 0, 0, 0, 0] } := by
  decide

/-! ## Stylized bytes -/

theorem stylizeStep_length (d : List Nat) (x y i : Nat) :
    (stylizeStep d x y i).length = d.length := by
  simp [stylizeStep, length_writeByte]

theorem stylizeStep_frame (d : List Nat) (x y i j : Nat) (hj : j < i ∨ i + 4 ≤ j) :
    readByte (stylizeStep d x y i) j = readByte d j := by
  have h0 : ¬ i = j := by omega
  have h1 : ¬ i + 1 = j := by omega
  have h2 : ¬ i + 2 = j := by omega
  simp [stylizeStep, readByte_writeByte, h0, h1, h2]

theorem stylizeStep_pixel (d : List Nat) (x y i : Nat) (hi : i + 4 ≤ d.length) :
    pixAt (stylizeStep d x y i) i = stylizePixel (pixAt d i) := by
  have h0 : i < d.length := by omega
  have h1 : i + 1 < d.length := by omega
  have h2 : i + 2 < d.length := by omega
  simp [stylizeStep, stylizePixel, pixAt, readByte_writeByte, length_writeByte, h0, h1, h2]

/-- The stylization scan replaces every pixel by its `stylizePixel` and keeps
the size of the buffer. -/
theorem stylize_pixel (image : Bitmap)
    (hlen : image.data.length = image.width * image.height * 4) :
    (stylize image).HasSize image.width image.height ∧
      ∀ x, x < image.width → ∀ y, y < image.height →
        (stylize image).pixel x y = stylizePixel (image.pixel x y) := by
  have key := foldl_pixel_local image.width (fun d : List Nat => d)
    (fun d => d.length = image.width * image.height * 4)
    (fun acc p => stylizeStep acc p.1 p.2 ((image.width * p.2 + p.1) * 4))
    (fun _ old => stylizePixel old)
    (scanCoords image.width image.height) (nodup_scanCoords _ _)
    (fun p hp => (mem_scanCoords.1 hp).1)
    (fun d p _ hd => (stylizeStep_length d _ _ _).trans hd)
    (fun d p j _ _ hj => stylizeStep_frame d _ _ _ j hj)
    (fun d p hp hd => by
      obtain ⟨hx, hy⟩ := mem_scanCoords.1 hp
      have := pixel_index_lt hx hy
      have hd' : d.length = image.width * image.height * 4 := hd
      exact stylizeStep_pixel d _ _ _ (by rw [hd']; omega))
    image.data hlen
  refine ⟨⟨rfl, rfl, key.1⟩, fun x hx y hy => ?_⟩
  have hk := key.2 (x, y) hx
  have hm : (x, y) ∈ scanCoords image.width image.height := mem_scanCoords.2 ⟨hx, hy⟩
  simp only [hm, if_true] at hk
  exact hk

theorem quantizeByte_multiple (d : Nat) :
    32 ∣ quantizeByte d ∧ quantizeByte d ≤ 224 ∧ quantizeByte d ≠ 255 := by
  unfold quantizeByte toUint8
  omega


/-- C12: for every input pixel of an image (a buffer of four bytes per pixel),
each of the r, g and b bytes that the stylization scan leaves in the buffer is
the quantization, stored with 8-bit wrap-around, of the boosted byte: a multiple
of 32 between 0 and 224, never 255.  The alpha byte is the one of the input. -/
theorem stylize_bytes_multiple_of_32 (image : Bitmap)
    (hlen : image.data.length = image.width * image.height * 4) :
    ∀ x, x < image.width → ∀ y, y < image.height →
      (stylize image).pixel x y = stylizePixel (image.pixel x y) ∧
      (32 ∣ ((stylize image).pixel x y).r ∧ ((stylize image).pixel x y).r ≤ 224 ∧
        ((stylize image).pixel x y).r ≠ 255) ∧
      (32 ∣ ((stylize image).pixel x y).g ∧ ((stylize image).pixel x y).g ≤ 224 ∧
        ((stylize image).pixel x y).g ≠ 255) ∧
      (32 ∣ ((stylize image).pixel x y).b ∧ ((stylize image).pixel x y).b ≤ 224 ∧
        ((stylize image).pixel x y).b ≠ 255) := by
  intro x hx y hy
  have h := (stylize_pixel image hlen).2 x hx y hy
  rw [h]
  exact ⟨rfl, quantizeByte_multiple _, quantizeByte_multiple _, quantizeByte_multiple _⟩

theorem stylize_bytes_multiple_of_32_witness :
    (⟨2, 1, [0, 255, 255, 255, 250, 10, 10, 7]⟩ : Bitmap).data.length
        = (⟨2, 1, [0, 255, 255, 255, 250, 10, 10, 7]⟩ : Bitmap).width
          * (⟨2, 1, [0, 255, 255, 255, 250, 10, 10, 7]⟩ : Bitmap).height * 4 ∧
      ∀ x, x < (⟨2, 1, [0, 255, 255, 255, 250, 10, 10, 7]⟩ : Bitmap).width →
        ∀ y, y < (⟨2, 1, [0, 255, 255, 255, 250, 10, 10, 7]⟩ : Bitmap).height →
          ((stylize ⟨2, 1, [0, 255, 255, 255, 250, 10, 10, 7]⟩).pixel x y =
            stylizePixel ((⟨2, 1, [0, 255, 255, 255, 250, 10, 10, 7]⟩ : Bitmap).pixel x y)) ∧
          (32 ∣ ((stylize ⟨2, 1, [0, 255, 255, 255, 250, 10, 10, 7]⟩).pixel x y).r ∧
            ((stylize ⟨2, 1, [0, 255, 255, 255, 250, 10, 10, 7]⟩).pixel x y).r ≤ 224 ∧
            ((stylize ⟨2, 1, [0, 255, 255, 255, 250, 10, 10, 7]⟩).pixel x y).r ≠ 255) ∧
          (32 ∣ ((stylize ⟨2, 1, [0, 255, 255, 255, 250, 10, 10, 7]⟩).pixel x y).g ∧
            ((stylize ⟨2, 1, [0, 255, 255, 255, 250, 10, 10, 7]⟩).pixel x y).g ≤ 224 ∧
            ((stylize ⟨2, 1, [0, 255, 255, 255, 250, 10, 10, 7]⟩).pixel x y).g ≠ 255) ∧
          (32 ∣ ((stylize ⟨2, 1, [0, 255, 255, 255, 250, 10, 10, 7]⟩).pixel x y).b ∧
            ((stylize ⟨2, 1, [0, 255, 255, 255, 250, 10, 10, 7]⟩).pixel x y).b ≤ 224 ∧
            ((stylize ⟨2, 1, [0, 255, 255, 255, 250, 10, 10, 7]⟩).pixel x y).b ≠ 255) :=
  ⟨by decide, stylize_bytes_multiple_of_32 ⟨2, 1, [0, 255, 255, 255, 250, 10, 10, 7]⟩ (by decide)⟩


/-! ## Conversion route -/

theorem falsy_outputs_path (name : String) : falsy (some ("/outputs/" ++ name)) = false := by
  have h9 : "/outputs/".length = 9 := by decide
  have h : ("/outputs/" ++ name).length ≠ "".length := by
    rw [String.length_append, h9]
    simp
  have hne : "/outputs/" ++ name ≠ "" := fun e => h (by rw [e])
  simp [falsy, hne]

theorem falsy_none : falsy none = true := rfl

theorem convertHandler_valid (templates : List String) (env : ConvertEnv)
    (req : ConvertRequest) (image : Bitmap) (hid : falsy req.templateId = false)
    (hphoto : req.photo = some (some image))
    (htemplate : templates.any (fun t => some t = req.templateId) = true) :
    convertHandler templates env req =
      if falsy (coloredBranch env req image (outlineBranch env req image
            { results := { outline := none, colored := none }, effects := [] })).results.outline ∧
          falsy (coloredBranch env req image (outlineBranch env req image
            { results := { outline := none, colored := none }, effects := [] })).results.colored
      then (.error 500 noOutputMessage,
        (coloredBranch env req image (outlineBranch env req image
          { results := { outline := none, colored := none }, effects := [] })).effects)
      else (.json (coloredBranch env req image (outlineBranch env req image
          { results := { outline := none, colored := none }, effects := [] })).results,
        (coloredBranch env req image (outlineBranch env req image
          { results := { outline := none, colored := none }, effects := [] })).effects) := by
  unfold convertHandler
  simp [hid, hphoto, htemplate]

/-- C11: for a conversion request that passes validation (template identifier
given and registered, photo decoded) in an environment where the copy of an
output does not fail, the handler answers with the no-output error exactly when
no requested branch produced a result; whenever `generateColored` is requested
the colored illustration is generated, whatever happened in the outline branch;
and when a requested branch produced a result the answer holds exactly the paths
of the requested branches that did. -/
theorem convert_branches_independent (templates : List String) (env : ConvertEnv)
    (req : ConvertRequest) (image : Bitmap) (hid : falsy req.templateId = false)
    (hphoto : req.photo = some (some image))
    (htemplate : templates.any (fun t => some t = req.templateId) = true)
    (hcopy : env.isVercel = true → env.copyOutline = true ∧ env.copyColored = true) :
    ((convertHandler templates env req).1 = .error 500 noOutputMessage ↔
        ¬ outlineProduced env req ∧ ¬ coloredProduced env req) ∧
      (req.generateColored = some "true" →
        ConvertEffect.generate (coloredFileName env)
            (generateColoredIllustrationFromMemory image)
          ∈ (convertHandler templates env req).2) ∧
      (outlineProduced env req ∨ coloredProduced env req →
        (convertHandler templates env req).1 =
          .json
            { outline := if outlineProduced env req
                then some ("/outputs/" ++ outlineFileName env) else none
              colored := if coloredProduced env req
                then some ("/outputs/" ++ coloredFileName env) else none }) := by
  rw [convertHandler_valid templates env req image hid hphoto htemplate]
  obtain ⟨isVercel, timestamp, writeOutline, writeColored, copyOutline, copyColored⟩ := env
  simp only at hcopy
  have hco : isVercel = true → copyOutline = true := fun h => (hcopy h).1
  have hcc : isVercel = true → copyColored = true := fun h => (hcopy h).2
  by_cases ho : req.generateOutline = some "true" <;>
  by_cases hc : req.generateColored = some "true" <;>
  cases isVercel <;> cases writeOutline <;> cases writeColored <;>
  simp_all [outlineBranch, coloredBranch, outlineProduced, coloredProduced,
    falsy_outputs_path, falsy_none]


theorem convert_branches_independent_witness :
    falsy sampleRequest.templateId = false ∧
      sampleRequest.photo = some (some ⟨1, 1, [1, 2, 3, 255]⟩) ∧
      ["t1"].any (fun t => some t = sampleRequest.templateId) = true ∧
      (sampleEnv.isVercel = true →
        sampleEnv.copyOutline = true ∧ sampleEnv.copyColored = true) ∧
      (((convertHandler ["t1"] sampleEnv sampleRequest).1 = .error 500 noOutputMessage ↔
          ¬ outlineProduced sampleEnv sampleRequest ∧
            ¬ coloredProduced sampleEnv sampleRequest) ∧
        (sampleRequest.generateColored = some "true" →
          ConvertEffect.generate (coloredFileName sampleEnv)
              (generateColoredIllustrationFromMemory ⟨1, 1, [1, 2, 3, 255]⟩)
            ∈ (convertHandler ["t1"] sampleEnv sampleRequest).2) ∧
        (outlineProduced sampleEnv sampleRequest ∨ coloredProduced sampleEnv sampleRequest →
          (convertHandler ["t1"] sampleEnv sampleRequest).1 =
            .json
              { outline := if outlineProduced sampleEnv sampleRequest
                  then some ("/outputs/" ++ outlineFileName sampleEnv) else none
                colored := if coloredProduced sampleEnv sampleRequest
                  then some ("/outputs/" ++ coloredFileName sampleEnv) else none })) :=
  ⟨by decide, rfl, by decide, by decide,
    convert_branches_independent ["t1"] sampleEnv sampleRequest ⟨1, 1, [1, 2, 3, 255]⟩
      (by decide) rfl (by decide) (by decide)⟩


end Pictures7
